import Mathlib

/-!
# SSEAPS peptide composition search

A shallow embedding of `MassSpecAnalysis/computeParallelPeptideComposition.c`
(the threaded knapsack search over the 19 amino acid masses) together with the
properties of the search proved about it.

Conventions of the embedding:

* `int` and `long` fields are `Int` and arithmetic on them is exact.  In a
  search from the all-zero record with `maxAcids` at most `MAX_PEPTIDE_SIZE`
  the counts stay below 22 and the masses below `22 * 2042262`, far from the
  limits of `int` and `long`, and inside the range where the comparisons the
  source makes in `double` (because `TOLERANCE` is the `double` constant
  `0.000`) agree with the integer comparisons used here.
* `typeIndex` is only ever used as an array index and is a `Nat`.
* `main` never sets `maxAcids` above `MAX_PEPTIDE_SIZE`, the number of slots
  of `threadArguments` less one; the list of slots of the embedding has no
  fixed size.
* `processType` works on a record reached through a pointer.  The embedding
  passes the record in and returns the record as the call leaves it.
* The only contact of `processType` with the file scope variables
  `numMatches` and `outputFp` is the call of `printCounts`; the embedding
  returns the list of records handed to `printCounts`.
* The recursion and the `while` loop are bounded by a budget (`fuel`); a run
  that exhausts the budget yields `none`.
* The spawned threads share nothing but the sink behind `printMutex`: each
  works on its own slot of `threadArguments`.  `pthread_create` and
  `pthread_join` are taken to succeed.  The embedding runs each spawned
  thread to completion in creation order; the theorems only speak about
  order independent facts of the output.
* `main` is embedded for the mode with command line arguments.  `sscanf` is
  a parameter (what is read from an argument, if anything), `fopen` is taken
  to succeed, and the `double` arithmetic on the input mass is exact
  arithmetic on rational numbers.  The ceiling that `main` stores in the
  `int` variable `maxAcids` goes through `intOfDouble`.
* The single-threaded program `computePeptideComposition.c` is embedded in
  the namespace `Reference`, under the same conventions.
* The argument parsing of `findMassSpecPeaks.c` is embedded in the namespace
  `PeakFinder`, up to the call of `fopen`; its `float` parameters are rational
  numbers and `sscanf` is a parameter.
* `searchTree` describes the same search without budget, threads or
  mutation.  `processType_char` shows that `processType` computes it, for
  every thread level; the properties of the rows are proved on `searchTree`.
-/

namespace SSEAPS

/-- The number of amino acid types that can be in a peptide. -/
def NUM_AMINO_ACID_TYPES : Nat := 19

/-- The maximum number of acids in a peptide. -/
def MAX_PEPTIDE_SIZE : Int := 20

/-- The tolerance in the mass to declare a match (`0.000` in the source). -/
def TOLERANCE : Int := 0

/-- The recursion level at which the source stops making threads. -/
def THREAD_LEVEL : Nat := 5

/-- The integer versions of the weights: the values that the set-up loop of
`main`, `typeMasses[index] = round(aminoAcidData[index].mass * 10000)`, stores
for the 19 rows of `aminoAcidData`. -/
def typeMasses : List Int :=
  [750669, 890935, 1050930, 1151310, 1171469, 1191197, 1211590, 1311736,
   1321184, 1331032, 1461451, 1461882, 1471299, 1492124, 1551552, 1651900,
   1742017, 1811894, 2042262]

/-- The argument record of `processType`. -/
structure TYPE_ARGUMENTS where
  numAcids : Int
  typeIndex : Nat
  typeCounts : List Int
  currentMass : Int
  numCombinations : Int
deriving DecidableEq, Repr

/-- What one call of `processType` leaves behind: the argument record after
the call, the records handed to `printCounts`, and the records on entry of
every invocation of `processType` made (the call itself first). -/
structure Effect where
  args : TYPE_ARGUMENTS
  printed : List TYPE_ARGUMENTS
  invoked : List TYPE_ARGUMENTS
deriving DecidableEq, Repr

/-- The slot `*threadArgument` as the threaded loop fills it for `typeCount`:
a copy of the input with `typeCount` acids of the current type added. -/
def threadSlot (inputArguments : TYPE_ARGUMENTS) (typeCount : Int) : TYPE_ARGUMENTS :=
  { numAcids := inputArguments.numAcids + typeCount
    typeIndex := inputArguments.typeIndex + 1
    typeCounts := inputArguments.typeCounts.set inputArguments.typeIndex typeCount
    currentMass := inputArguments.currentMass
      + typeCount * typeMasses.getD inputArguments.typeIndex 0
    numCombinations := 1 }

/-- The `for` loop of the threaded branch over the candidate counts still to
try.  Returns the slots for which a thread was created and the record printed
when the loop ended on a match. -/
def threadLoop (targetMass : Int) (inputArguments : TYPE_ARGUMENTS) :
    List Nat → List TYPE_ARGUMENTS × List TYPE_ARGUMENTS
  | [] => ([], [])
  | typeCount :: more =>
    let threadArgument := threadSlot inputArguments typeCount
    if threadArgument.currentMass > targetMass + TOLERANCE then ([], [])
    else if threadArgument.currentMass ≥ targetMass - TOLERANCE then ([], [threadArgument])
    else
      let rest := threadLoop targetMass inputArguments more
      (threadArgument :: rest.1, rest.2)

/-- Runs the created threads, each on its own slot. -/
def runThreads (body : TYPE_ARGUMENTS → Option Effect) :
    List TYPE_ARGUMENTS → Option (List Effect)
  | [] => some []
  | threadArgument :: more =>
    match body threadArgument with
    | none => none
    | some e =>
      match runThreads body more with
      | none => none
      | some es => some (e :: es)

/-- The join loop: `while(--numThreads >= 0)` adds the counter of each slot,
last thread first, to the counter of the input. -/
def joinThreads (numCombinations : Int) (slots : List TYPE_ARGUMENTS) : Int :=
  slots.reverse.foldl (fun total slot => total + slot.numCombinations) numCombinations

/-- The state of the sequential `while` loop on exit. -/
structure LoopExit where
  args : TYPE_ARGUMENTS
  loopCount : Int
  printed : List TYPE_ARGUMENTS
  invoked : List TYPE_ARGUMENTS
deriving DecidableEq, Repr

/-- The record after the body of the sequential loop added one acid of the
type `typeIndex`. -/
def addOne (typeIndex : Nat) (a : TYPE_ARGUMENTS) : TYPE_ARGUMENTS :=
  { a with
    numAcids := a.numAcids + 1
    numCombinations := a.numCombinations + 1
    typeCounts := a.typeCounts.set typeIndex (a.typeCounts.getD typeIndex 0 + 1)
    currentMass := a.currentMass + typeMasses.getD typeIndex 0 }

/-- The `while (inputArguments->numAcids <= maxAcids)` loop of the sequential
branch; `recurse` is the recursive call of `processType`. -/
def seqLoop (recurse : TYPE_ARGUMENTS → Option Effect) (maxAcids targetMass : Int)
    (typeIndex : Nat) : Nat → TYPE_ARGUMENTS → Int → Option LoopExit
  | 0, _, _ => none
  | fuel + 1, inputArguments, loopCount =>
    if inputArguments.numAcids ≤ maxAcids then
      if inputArguments.currentMass > targetMass + TOLERANCE then
        some ⟨inputArguments, loopCount, [], []⟩
      else if inputArguments.currentMass ≥ targetMass - TOLERANCE then
        some ⟨inputArguments, loopCount, [inputArguments], []⟩
      else
        match recurse inputArguments with
        | none => none
        | some e =>
          match seqLoop recurse maxAcids targetMass typeIndex fuel
              (addOne typeIndex e.args) (loopCount + 1) with
          | none => none
          | some r => some ⟨r.args, r.loopCount, e.printed ++ r.printed, e.invoked ++ r.invoked⟩
    else some ⟨inputArguments, loopCount, [], []⟩

/-- The record as the sequential branch puts it back after its loop. -/
def putBack (typeIndex : Nat) (r : LoopExit) : TYPE_ARGUMENTS :=
  { r.args with
    typeIndex := r.args.typeIndex - 1
    numAcids := r.args.numAcids - r.loopCount
    currentMass := r.args.currentMass - r.loopCount * typeMasses.getD typeIndex 0
    typeCounts := r.args.typeCounts.set typeIndex 0 }

/-- The function `processType` of the threaded program, with the thread level
`threadLevel` (`THREAD_LEVEL` in the source) and the file scope variables
`maxAcids` and `targetMass` as parameters. -/
def processType (threadLevel : Nat) (maxAcids targetMass : Int) :
    Nat → TYPE_ARGUMENTS → Option Effect
  | 0, _ => none
  | fuel + 1, inputArguments =>
    if inputArguments.typeIndex = NUM_AMINO_ACID_TYPES then
      some ⟨inputArguments, [], [inputArguments]⟩
    else if inputArguments.typeIndex < threadLevel then
      let loop := threadLoop targetMass inputArguments
        (List.range (maxAcids - inputArguments.numAcids + 1).toNat)
      match runThreads (processType threadLevel maxAcids targetMass fuel) loop.1 with
      | none => none
      | some es =>
        some ⟨{ inputArguments with
                numCombinations :=
                  joinThreads inputArguments.numCombinations (es.map (fun e => e.args)) },
              (es.map (fun e => e.printed)).flatten ++ loop.2,
              inputArguments :: (es.map (fun e => e.invoked)).flatten⟩
    else
      let typeIndex := inputArguments.typeIndex
      match seqLoop (processType threadLevel maxAcids targetMass fuel) maxAcids targetMass
          typeIndex (fuel + 1) { inputArguments with typeIndex := typeIndex + 1 } 0 with
      | none => none
      | some r => some ⟨putBack typeIndex r, r.printed, inputArguments :: r.invoked⟩

/-- The record `main` starts every search from (`memset` to zero). -/
def zeroArguments : TYPE_ARGUMENTS :=
  { numAcids := 0
    typeIndex := 0
    typeCounts := List.replicate NUM_AMINO_ACID_TYPES 0
    currentMass := 0
    numCombinations := 0 }

/-- The record with its counter of combinations replaced. -/
def setCounter (a : TYPE_ARGUMENTS) (n : Int) : TYPE_ARGUMENTS :=
  ⟨a.numAcids, a.typeIndex, a.typeCounts, a.currentMass, n⟩

/-- The record as a thread slot shows it: the counter of combinations, the one
field the two branches of `processType` fill differently, set to the value a
fresh slot carries. -/
def slotView (a : TYPE_ARGUMENTS) : TYPE_ARGUMENTS := setCounter a 1

/-- The candidate counts of one node of the search tree, written without
budget, threads or mutation: the rows matched below the node and the number of
nodes below it; `sub` gives the same for the subtree of a child. -/
def searchLoop (sub : TYPE_ARGUMENTS → List TYPE_ARGUMENTS × Int) (targetMass : Int)
    (s : TYPE_ARGUMENTS) : List Nat → List TYPE_ARGUMENTS × Int
  | [] => ([], 0)
  | k :: more =>
    if (threadSlot s k).currentMass > targetMass + TOLERANCE then ([], 0)
    else if (threadSlot s k).currentMass ≥ targetMass - TOLERANCE then ([threadSlot s k], 0)
    else ((sub (threadSlot s k)).1 ++ (searchLoop sub targetMass s more).1,
          1 + (sub (threadSlot s k)).2 + (searchLoop sub targetMass s more).2)

/-- The search tree below a node that has `depth` types left to assign. -/
def searchTree (maxAcids targetMass : Int) : Nat → TYPE_ARGUMENTS → List TYPE_ARGUMENTS × Int
  | 0, _ => ([], 0)
  | depth + 1, s =>
    searchLoop (searchTree maxAcids targetMass depth) targetMass s
      (List.range (maxAcids - s.numAcids + 1).toNat)

/-- The shape of a record `processType` is entered with: 19 counts, a type
index up to 19, and no count assigned yet from the type index on. -/
def Ready (s : TYPE_ARGUMENTS) : Prop :=
  s.typeCounts.length = NUM_AMINO_ACID_TYPES ∧ s.typeIndex ≤ NUM_AMINO_ACID_TYPES ∧
    ∀ i, s.typeIndex ≤ i → s.typeCounts.getD i 0 = 0

/-- The mass of a vector of counts: the sum of `c[i] * typeMasses[i]`. -/
def massOf (c : List Int) : Int := (List.zipWith (fun n m => n * m) c typeMasses).sum

/-- The vector `c` with the counts from index `t` on put to zero. -/
def zeroFrom (t : Nat) (c : List Int) : List Int :=
  c.take t ++ List.replicate (c.length - t) 0

/-- A record whose bookkeeping is consistent: ready for `processType`, with
`numAcids` the sum of the counts and `currentMass` their mass. -/
def Good (s : TYPE_ARGUMENTS) : Prop :=
  Ready s ∧ s.numAcids = s.typeCounts.sum ∧ s.currentMass = massOf s.typeCounts

/-- What every run of `processType` keeps, whatever the counts of the record it
is entered with: the call puts `numAcids`, `typeIndex` and `currentMass` back,
the trace of invocations starts with the call itself, every later invocation
is deeper and within the cap, the invocations one level down from a threaded
node are the slots filled for its threads, and every record printed is within
the cap. -/
def Traced (L : Nat) (M : Int) (s : TYPE_ARGUMENTS) (e : Effect) : Prop :=
  e.args.numAcids = s.numAcids ∧ e.args.typeIndex = s.typeIndex ∧
    e.args.currentMass = s.currentMass ∧
    (∃ rest, e.invoked = s :: rest ∧
      (∀ q ∈ rest, q.numAcids ≤ M ∧ s.typeIndex < q.typeIndex) ∧
      (s.typeIndex < L → ∀ q ∈ rest, q.typeIndex = s.typeIndex + 1 →
        ∃ count : Nat, s.numAcids + count ≤ M ∧ q = threadSlot s (count : Int))) ∧
    ∀ p ∈ e.printed, p.numAcids ≤ M

/-- The file scope variables guarded by `printMutex`: the number of matches
and the text written so far to `outputFp` (`none` when `outputFp` is `NULL`). -/
structure Sink where
  numMatches : Int
  outputFp : Option String
deriving DecidableEq, Repr

/-- The text `fprintf` writes for the conversion `%02d`. -/
def twoDigits (n : Int) : String :=
  if 0 ≤ n ∧ n < 10 then "0" ++ toString n else toString n

/-- The text `fprintf` writes for `"%.4f"` of `(double)(mass)/10000`.  For
`|mass| < 2^52` the quotient in `double` is closer to `mass/10000` than half a
unit of the fourth decimal, so the text is the decimal expansion of
`mass/10000` itself. -/
def fourDecimals (mass : Int) : String :=
  let digits := toString (mass.natAbs % 10000)
  (if mass < 0 then "-" else "") ++ toString (mass.natAbs / 10000) ++ "."
    ++ String.mk (List.replicate (4 - digits.length) '0') ++ digits

/-- The row `printCounts` writes for a record. -/
def rowText (typeArgument : TYPE_ARGUMENTS) : String :=
  (List.range NUM_AMINO_ACID_TYPES).foldl
      (fun text itype => text ++ twoDigits (typeArgument.typeCounts.getD itype 0) ++ ",") ""
    ++ fourDecimals typeArgument.currentMass ++ "\n"

/-- The function `printCounts`: counts the match and, when a file is open,
appends the row of the record. -/
def printCounts (typeArgument : TYPE_ARGUMENTS) (sink : Sink) : Sink :=
  { numMatches := sink.numMatches + 1
    outputFp := sink.outputFp.map (fun text => text ++ rowText typeArgument) }

/-- The sink after the calls of `printCounts` of one run. -/
def report (printed : List TYPE_ARGUMENTS) (sink : Sink) : Sink :=
  printed.foldl (fun g typeArgument => printCounts typeArgument g) sink

/-- The target mass as `main` quantizes it, `round(inputMass * 10000)`, with
the input mass a rational number and exact arithmetic in place of `double`. -/
def quantize (inputMass : ℚ) : Int := round (inputMass * 10000)

/-- The value an `int` takes when a `double` with the integral value `x` is
stored in it: `x` itself when it lies in the range of `int`.  For a value
outside that range the C standard leaves the conversion undefined; the
embedding takes the value the conversion instruction of x86-64 delivers,
`INT_MIN`. -/
def intOfDouble (x : Int) : Int :=
  if -2147483648 ≤ x ∧ x ≤ 2147483647 then x else -2147483648

/-- The cap on the number of acids as `main` derives it from the input mass,
with the line it prints.  The `double` quotient
`inputMass/aminoAcidData[0].mass` is taken exact (a rational number, the mass
of glycine being 75.0669); its ceiling is stored in the `int` variable
`maxAcids` before it is compared with `MAX_PEPTIDE_SIZE`. -/
def capFor (inputMass : ℚ) : Int × String :=
  let maxAcids : Int := intOfDouble ⌈inputMass / (750669 / 10000)⌉
  if maxAcids > MAX_PEPTIDE_SIZE then
    (MAX_PEPTIDE_SIZE, "Clipping Peptide Length at " ++ toString MAX_PEPTIDE_SIZE ++ "\n")
  else (maxAcids, "Max Peptide Length: " ++ toString maxAcids ++ "\n")

/-- A data base entry for an amino acid. -/
structure AMINO_ACID_DATA where
  symbol : String
  name : String
  formula : String
  mass : ℚ
deriving DecidableEq, Repr

/-- The table `aminoAcidData` of the 19 amino acid types, the masses in
Daltons as the decimal numbers written in the source. -/
def aminoAcidData : List AMINO_ACID_DATA :=
  [⟨"G", "Glycine", "C2H5NO2", 75.0669⟩,
   ⟨"A", "Alanine", "C3H7NO2", 89.0935⟩,
   ⟨"S", "Serine", "C3H7NO3", 105.0930⟩,
   ⟨"P", "Proline", "C5H9NO2", 115.1310⟩,
   ⟨"V", "Valine", "C5H11NO2", 117.1469⟩,
   ⟨"T", "Threonine", "C4H9NO3", 119.1197⟩,
   ⟨"C", "Cysteine", "C3H7NO2S", 121.1590⟩,
   ⟨"L", "Leucine", "C6H13NO2", 131.1736⟩,
   ⟨"N", "Asparagine", "C4H8N2O3", 132.1184⟩,
   ⟨"D", "Aspartate", "C4H7NO4", 133.1032⟩,
   ⟨"Q", "Glutamine", "C5H10N2O3", 146.1451⟩,
   ⟨"K", "Lysine", "C6H14N2O2", 146.1882⟩,
   ⟨"E", "Glutamate", "C5H9NO4", 147.1299⟩,
   ⟨"M", "Methionine", "C5H11NO2S", 149.2124⟩,
   ⟨"H", "Histidine", "C6H9N3O2", 155.1552⟩,
   ⟨"F", "Phenylalanine", "C9H11NO2", 165.1900⟩,
   ⟨"R", "Arginine", "C6H14N4O2", 174.2017⟩,
   ⟨"Y", "Tyrosine", "C9H11NO3", 181.1894⟩,
   ⟨"W", "Tryptophan", "C11H12N2O2", 204.2262⟩]

/-- One pass of the loop of `main` over the target masses of the command line:
the quantized target, the cap and the line printed for it, the name and the
text of the output file when it is closed, and the file scope counter
`numMatches` and the `numCombinations` of the root record after the search. -/
structure Pass where
  targetMass : Int
  maxAcids : Int
  line : String
  fileName : String
  fileText : String
  numMatches : Int
  numCombinations : Int
deriving DecidableEq, Repr

/-- The body of the loop of `main` for one target mass: the target and the cap
are set, the output file is opened empty (`fopen` is taken to succeed), the
record is cleared and `processType` is run.  `numMatches` is the value of the
file scope counter on entry; the body does not assign it. -/
def searchPass (fuel : Nat) (idName : String) (itry : Nat) (inputMass : ℚ) (numMatches : Int) :
    Option Pass :=
  let targetMass := quantize inputMass
  let cap := capFor inputMass
  match processType THREAD_LEVEL cap.1 targetMass fuel zeroArguments with
  | none => none
  | some e =>
    let sink := report e.printed ⟨numMatches, some ""⟩
    some ⟨targetMass, cap.1, cap.2,
      "Compositions-" ++ idName ++ "-" ++ toString itry ++ ".csv",
      sink.outputFp.getD "", sink.numMatches, e.args.numCombinations⟩

/-- The loop `while (argc > 0)` of `main` over the remaining arguments.
`sscanf` gives the number read from an argument, or `none` when nothing can be
read; the source does not test its result, so `inputMass` then keeps the value
it had. -/
def perTarget (fuel : Nat) (sscanf : String → Option ℚ) (idName : String) :
    List String → Nat → ℚ → Int → Option (List Pass)
  | [], _, _, _ => some []
  | arg :: argv, itry, inputMass, numMatches =>
    let inputMass := (sscanf arg).getD inputMass
    match searchPass fuel idName itry inputMass numMatches with
    | none => none
    | some pass =>
      match perTarget fuel sscanf idName argv (itry + 1) inputMass pass.numMatches with
      | none => none
      | some passes => some (pass :: passes)

/-- How a run of `main` ends: in the mode without arguments (the internal test
cases), out of budget, or by `exit` with a status after the passes made. -/
inductive Outcome where
  | timing : Outcome
  | exhausted : Outcome
  | exited (status : Int) (passes : List Pass) : Outcome
deriving DecidableEq, Repr

/-- The function `main` of the threaded program on the argument vector `argv`
(program name first).  `inputMass` is the value the local variable of that
name holds before the first `sscanf`. -/
def main (fuel : Nat) (sscanf : String → Option ℚ) (inputMass : ℚ) (argv : List String) :
    Outcome :=
  if argv.length > 1 then
    let argv := argv.tail
    if argv.length < 1 then Outcome.exited 1 []
    else
      let idName := argv.headD ""
      match perTarget fuel sscanf idName argv.tail 0 inputMass 0 with
      | none => Outcome.exhausted
      | some passes => Outcome.exited 0 passes
  else Outcome.timing

namespace Reference

/-- What one call of `processType` of the single-threaded program leaves
behind: the array `typeCounts` after the call, the arrays handed to
`printCounts`, and the number of times `numCombinations` was incremented. -/
structure Effect where
  typeCounts : List Int
  printed : List (List Int)
  numCombinations : Int
deriving DecidableEq, Repr

/-- The `for` loop of `processType` of the single-threaded program over the
candidate counts still to try; `recurse` is the recursive call for the next
type (it takes `numLeft`, `currentMass` and `typeCounts`). -/
def loop (recurse : Int → Int → List Int → Option Effect) (numLeft : Int) (typeIndex : Nat)
    (targetMass currentMass : Int) : List Nat → List Int → Option Effect
  | [], typeCounts => some ⟨typeCounts.set typeIndex 0, [], 0⟩
  | typeCount :: more, typeCounts =>
    let typeCounts := typeCounts.set typeIndex typeCount
    let newMass := currentMass + typeCount * typeMasses.getD typeIndex 0
    if newMass > targetMass + TOLERANCE then some ⟨typeCounts.set typeIndex 0, [], 1⟩
    else if newMass ≥ targetMass - TOLERANCE then
      some ⟨typeCounts.set typeIndex 0, [typeCounts], 1⟩
    else
      match recurse (numLeft - typeCount) newMass typeCounts with
      | none => none
      | some e =>
        match loop recurse numLeft typeIndex targetMass currentMass more e.typeCounts with
        | none => none
        | some r => some ⟨r.typeCounts, e.printed ++ r.printed, 1 + e.numCombinations + r.numCombinations⟩

/-- The function `processType` of the single-threaded program. -/
def processType : Nat → Int → Nat → Int → Int → List Int → Option Effect
  | 0, _, _, _, _, _ => none
  | fuel + 1, numLeft, typeIndex, targetMass, currentMass, typeCounts =>
    if typeIndex = NUM_AMINO_ACID_TYPES then some ⟨typeCounts, [], 0⟩
    else
      loop (fun numLeft currentMass typeCounts =>
          processType fuel numLeft (typeIndex + 1) targetMass currentMass typeCounts)
        numLeft typeIndex targetMass currentMass (List.range (numLeft + 1).toNat) typeCounts

/-- The function `findPeptides`: the search for the quantized input mass from
the all-zero array, limited to `maxAminoAcids` acids. -/
def findPeptides (fuel : Nat) (inputMass : ℚ) (maxAminoAcids : Int) : Option Effect :=
  processType fuel maxAminoAcids 0 (round (10000 * inputMass)) 0
    (List.replicate NUM_AMINO_ACID_TYPES 0)

/-- How a run of `main` of the single-threaded program ends: in the mode
without arguments, out of budget, with the usage line and `exit(1)`, or by
`exit` with a status after the search, with the value read for
`maxAminoAcids`. -/
inductive Outcome where
  | timing : Outcome
  | exhausted : Outcome
  | usage : Outcome
  | exited (status : Int) (maxAminoAcids : Int) (search : Effect) : Outcome
deriving DecidableEq, Repr

/-- The function `main` of the single-threaded program on the argument vector
`argv`; `sscanfMass` and `sscanfCount` give what `sscanf` reads with `%lf` and
`%d`, or `none` when nothing can be read. -/
def main (fuel : Nat) (sscanfMass : String → Option ℚ) (sscanfCount : String → Option Int)
    (argv : List String) : Outcome :=
  if argv.length > 1 then
    if argv.length < 3 then Outcome.usage
    else
      match sscanfMass (argv.getD 1 ""), sscanfCount (argv.getD 2 "") with
      | some inputMass, some maxAminoAcids =>
        match findPeptides fuel inputMass 16 with
        | none => Outcome.exhausted
        | some search => Outcome.exited 0 maxAminoAcids search
      | _, _ => Outcome.usage
  else Outcome.timing

end Reference

/-- The trace of invocations of a run entered with the record `s`: it starts
with `s`, every record in it is consistent, and every later record is the slot
that an earlier record of the trace, one level up, makes for some count (up to
the counter of combinations, which the two branches fill differently). -/
def Linked (s : TYPE_ARGUMENTS) (invoked : List TYPE_ARGUMENTS) : Prop :=
  ∃ rest, invoked = s :: rest ∧ (∀ q ∈ invoked, Good q) ∧
    ∀ q ∈ rest, ∃ p ∈ invoked, ∃ count : Nat, slotView q = threadSlot p (count : Int)

/-- The indexes into `threadArguments` of the slots the `for` loop of the
threaded branch fills: in the pass for `typeCount` the pointer `threadArgument`
is `threadArguments + typeCount`, and the body runs for every candidate count up
to and including the one on which the loop breaks. -/
def slotsFilled (targetMass : Int) (inputArguments : TYPE_ARGUMENTS) : List Nat → List Nat
  | [] => []
  | typeCount :: more =>
    let threadArgument := threadSlot inputArguments typeCount
    if threadArgument.currentMass > targetMass + TOLERANCE then [typeCount]
    else if threadArgument.currentMass ≥ targetMass - TOLERANCE then [typeCount]
    else typeCount :: slotsFilled targetMass inputArguments more

/-- The indexes into `threadIds` at `pthread_create` (`numThreads++`), which
are also the indexes into `threadIds` and `threadArguments` in the join loop
(`--numThreads`), for `numThreads` created threads. -/
def threadIdsUsed (numThreads : Nat) : List Nat := List.range numThreads

namespace PeakFinder

/-- The detection parameters of `main` of `findMassSpecPeaks.c` (`float` in the
source). -/
structure Parameters where
  window_size : ℚ
  peak_size : ℚ
  threshold : ℚ
deriving DecidableEq

/-- The values the parameters are declared with: `threshold=5.0`,
`peak_size=8`, `window_size = 16.0`. -/
def defaults : Parameters :=
  { window_size := 16
    peak_size := 8
    threshold := 5 }

/-- The loop `while (argc > 1)` of `main` over the arguments after the program
name.  `strcmp` returns a non-zero value when the strings differ, and the source
tests `if (strcmp(argv[0],"-window_size"))`, so a branch is taken when
`argv[0]` differs from the option it names.  `sscanf` is the conversion `"%f"`;
`none` stands for `USAGE(pname)`.  Returns the parameters and the arguments
left when the loop ends. -/
def argumentLoop (sscanf : String → Option ℚ) :
    List String → Parameters → Option (Parameters × List String)
  | option :: value :: more, p =>
    if option ≠ "-window_size" then
      match sscanf value with
      | none => none
      | some w => argumentLoop sscanf more { p with window_size := w }
    else if option ≠ "-peak_size" then
      match sscanf value with
      | none => none
      | some w => argumentLoop sscanf more { p with peak_size := w }
    else if option ≠ "-threshold" then
      match sscanf value with
      | none => none
      | some w => argumentLoop sscanf more { p with threshold := w }
    else none
  | argv, p => some (p, argv)

/-- How the argument parsing of `main` ends: with the usage message and
`exit(1)`, or at the line that prints the parameters and opens `argv[0]`
(`none` when no argument is left and `argv[0]` is the terminating null
pointer). -/
inductive Outcome where
  | usage : Outcome
  | detect (parameters : Parameters) (fileName : Option String) : Outcome
deriving DecidableEq

/-- The argument parsing of `main` of `findMassSpecPeaks.c`, up to the call of
`fopen`: `argv` is the whole argument vector, program name first. -/
def main (sscanf : String → Option ℚ) (argv : List String) : Outcome :=
  match argumentLoop sscanf argv.tail defaults with
  | none => Outcome.usage
  | some (p, argv) => Outcome.detect p argv.head?

end PeakFinder

/-! ## Properties -/

set_option linter.unusedVariables false

theorem joinThreads_cons (n : Int) (x : TYPE_ARGUMENTS) (xs : List TYPE_ARGUMENTS) :
    joinThreads n (x :: xs) = joinThreads n xs + x.numCombinations := by
  simp [joinThreads, List.foldl_append]

theorem joinThreads_eq_sum (n : Int) (xs : List TYPE_ARGUMENTS) :
    joinThreads n xs = n + (xs.map (fun x => x.numCombinations)).sum := by
  induction xs with
  | nil => simp [joinThreads]
  | cons x xs ih => rw [joinThreads_cons, ih]; simp; ring

theorem threadSlot_counter (s : TYPE_ARGUMENTS) (n : Int) (k : Int) :
    threadSlot (setCounter s n) k = threadSlot s k := rfl

theorem searchLoop_counter (sub : TYPE_ARGUMENTS → List TYPE_ARGUMENTS × Int) (T : Int)
    (s : TYPE_ARGUMENTS) (n : Int) (ks : List Nat) :
    searchLoop sub T (setCounter s n) ks = searchLoop sub T s ks := by
  induction ks with
  | nil => rfl
  | cons k more ih => simp only [searchLoop, threadSlot_counter, ih]

theorem searchTree_counter (M T : Int) (d : Nat) (s : TYPE_ARGUMENTS) (n : Int) :
    searchTree M T d (setCounter s n) = searchTree M T d s := by
  cases d with
  | zero => rfl
  | succ d => simp only [searchTree, searchLoop_counter]; rfl

theorem searchLoop_eq_threadLoop (sub : TYPE_ARGUMENTS → List TYPE_ARGUMENTS × Int) (T : Int)
    (s : TYPE_ARGUMENTS) (ks : List Nat) :
    searchLoop sub T s ks =
      (((threadLoop T s ks).1.map (fun ch => (sub ch).1)).flatten ++ (threadLoop T s ks).2,
       ((threadLoop T s ks).1.map (fun ch => 1 + (sub ch).2)).sum) := by
  induction ks with
  | nil => simp [searchLoop, threadLoop]
  | cons k more ih =>
    simp only [searchLoop, threadLoop]
    split_ifs with h1 h2
    · simp
    · simp
    · rw [ih]; simp [List.append_assoc, add_assoc]

theorem threadLoop_mem (T : Int) (s : TYPE_ARGUMENTS) (ks : List Nat) (ch : TYPE_ARGUMENTS)
    (h : ch ∈ (threadLoop T s ks).1) : ∃ k ∈ ks, ch = threadSlot s (k : Int) := by
  induction ks with
  | nil => simp [threadLoop] at h
  | cons k more ih =>
    simp only [threadLoop] at h
    split_ifs at h with h1 h2
    · simp at h
    · simp at h
    · simp only [List.mem_cons] at h
      rcases h with h | h
      · exact ⟨k, by simp, h⟩
      · obtain ⟨k', hk', e⟩ := ih h
        exact ⟨k', by simp [hk'], e⟩

theorem ready_child {s : TYPE_ARGUMENTS} (hs : Ready s) (ht : s.typeIndex < NUM_AMINO_ACID_TYPES)
    (k n : Int) : Ready (setCounter (threadSlot s k) n) := by
  obtain ⟨hl, _, hz⟩ := hs
  refine ⟨by simpa [threadSlot, setCounter] using hl, by simp [threadSlot, setCounter]; omega, ?_⟩
  intro i hi
  simp only [threadSlot, setCounter] at hi ⊢
  rw [List.getD_eq_getElem?_getD, List.getElem?_set_ne (by omega), ← List.getD_eq_getElem?_getD]
  exact hz i (by omega)

theorem runThreads_char (body : TYPE_ARGUMENTS → Option Effect)
    (sub : TYPE_ARGUMENTS → List TYPE_ARGUMENTS × Int) (l : List TYPE_ARGUMENTS)
    (h : ∀ ch ∈ l, ∃ e, body ch = some e ∧
      e.args = setCounter ch (ch.numCombinations + (sub ch).2) ∧
      e.printed.map slotView = (sub ch).1 ∧ (e.invoked.length : Int) = 1 + (sub ch).2) :
    ∃ es, runThreads body l = some es ∧
      (es.map (fun e => e.printed)).flatten.map slotView = (l.map (fun ch => (sub ch).1)).flatten ∧
      (es.map (fun e => e.args.numCombinations)).sum
        = (l.map (fun ch => ch.numCombinations + (sub ch).2)).sum ∧
      (((es.map (fun e => e.invoked)).flatten.length : Nat) : Int)
        = (l.map (fun ch => 1 + (sub ch).2)).sum := by
  induction l with
  | nil => exact ⟨[], by simp [runThreads]⟩
  | cons ch more ih =>
    obtain ⟨e, he, ha, hp, hi⟩ := h ch (by simp)
    obtain ⟨es, hes, h1, h2, h3⟩ := ih (fun c hc => h c (by simp [hc]))
    refine ⟨e :: es, by simp [runThreads, he, hes], ?_, ?_, ?_⟩
    · simp only [List.map_cons, List.flatten_cons, List.map_append, hp]
      rw [h1]
    · simp only [List.map_cons, List.sum_cons, h2, ha, setCounter]
    · simp only [List.map_cons, List.flatten_cons, List.length_append, List.sum_cons]
      push_cast
      rw [h3, hi]

theorem addOne_slot (s : TYPE_ARGUMENTS) (ht : s.typeIndex < s.typeCounts.length) (k : Nat)
    (n : Int) :
    addOne s.typeIndex (setCounter (threadSlot s (k : Int)) n)
      = setCounter (threadSlot s ((k : Int) + 1)) (n + 1) := by
  simp only [addOne, threadSlot, setCounter, List.set_set, List.getD_eq_getElem?_getD,
    List.getElem?_set_self ht, Option.getD_some]
  congr 1 <;> ring

/-- The sequential loop, started at count `k` on a ready record, ends with the
record of some count `K`, and prints and counts what `searchLoop` lists for the
remaining candidates, provided the recursive call does so for the children. -/
theorem seqLoop_char (recurse : TYPE_ARGUMENTS → Option Effect) (M T : Int)
    (s : TYPE_ARGUMENTS) (ht : s.typeIndex < s.typeCounts.length)
    (sub : TYPE_ARGUMENTS → List TYPE_ARGUMENTS × Int)
    (hrec : ∀ (k : Nat) (n : Int), s.numAcids + k ≤ M →
      ∃ e, recurse (setCounter (threadSlot s (k : Int)) n) = some e ∧
        e.args = setCounter (threadSlot s (k : Int)) (n + (sub (threadSlot s k)).2) ∧
        e.printed.map slotView = (sub (threadSlot s k)).1 ∧
        (e.invoked.length : Int) = 1 + (sub (threadSlot s k)).2) :
    ∀ (len k : Nat) (n : Int) (lf : Nat), k + len = (M - s.numAcids + 1).toNat → len < lf →
      ∃ r, seqLoop recurse M T s.typeIndex lf (setCounter (threadSlot s (k : Int)) n) (k : Int)
          = some r ∧
        ∃ K : Nat, r.loopCount = (K : Int) ∧
          r.args = setCounter (threadSlot s (K : Int))
            (n + (searchLoop sub T s (List.range' k len)).2) ∧
          r.printed.map slotView = (searchLoop sub T s (List.range' k len)).1 ∧
          (r.invoked.length : Int) = (searchLoop sub T s (List.range' k len)).2 := by
  intro len
  induction len with
  | zero =>
    intro k n lf hk hlf
    obtain ⟨lf, rfl⟩ : ∃ m, lf = m + 1 := ⟨lf - 1, by omega⟩
    have hg : ¬ ((setCounter (threadSlot s (k : Int)) n).numAcids ≤ M) := by
      simp only [threadSlot, setCounter]; omega
    refine ⟨_, by simp only [seqLoop]; rw [if_neg hg], k, rfl, ?_, ?_, ?_⟩ <;>
      simp [searchLoop]
  | succ len ih =>
    intro k n lf hk hlf
    obtain ⟨lf, rfl⟩ : ∃ m, lf = m + 1 := ⟨lf - 1, by omega⟩
    have hg : (setCounter (threadSlot s (k : Int)) n).numAcids ≤ M := by
      simp only [threadSlot, setCounter]; omega
    have hm : (setCounter (threadSlot s (k : Int)) n).currentMass
        = (threadSlot s (k : Int)).currentMass := rfl
    simp only [seqLoop, List.range'_succ, searchLoop]
    rw [if_pos hg, hm]
    by_cases h1 : (threadSlot s (k : Int)).currentMass > T + TOLERANCE
    · rw [if_pos h1, if_pos h1]
      exact ⟨_, rfl, k, rfl, by simp, by simp, by simp⟩
    · rw [if_neg h1, if_neg h1]
      by_cases h2 : (threadSlot s (k : Int)).currentMass ≥ T - TOLERANCE
      · rw [if_pos h2, if_pos h2]
        exact ⟨_, rfl, k, rfl, by simp, by simp [slotView, setCounter, threadSlot], by simp⟩
      · rw [if_neg h2, if_neg h2]
        obtain ⟨e, he, ha, hp, hi⟩ := hrec k n (by simpa [threadSlot, setCounter] using hg)
        obtain ⟨r, hr, K, hK, hra, hrp, hri⟩ :=
          ih (k + 1) (n + (sub (threadSlot s k)).2 + 1) lf (by omega) (by omega)
        rw [Nat.cast_succ] at hr
        rw [he]
        simp only [ha, addOne_slot s ht k]
        rw [hr]
        refine ⟨_, rfl, K, hK, ?_, ?_, ?_⟩
        · simp only [hra]
          congr 1
          ring
        · simp only [List.map_append, hp, hrp]
        · simp only [List.length_append]
          push_cast
          rw [hi, hri]

theorem ready_set_zero {s : TYPE_ARGUMENTS} (hs : Ready s) :
    s.typeCounts.set s.typeIndex 0 = s.typeCounts := by
  obtain ⟨_, _, hz⟩ := hs
  apply List.ext_getElem?
  intro j
  have h0 := hz s.typeIndex le_rfl
  rw [List.getD_eq_getElem?_getD] at h0
  rw [List.getElem?_set]
  by_cases hj : s.typeIndex = j
  · subst hj
    rw [if_pos rfl]
    split_ifs with hlt
    · rw [List.getElem?_eq_getElem hlt] at h0 ⊢
      simp at h0
      simp [h0]
    · rw [List.getElem?_eq_none (by omega)]
  · rw [if_neg hj]

theorem seq_start (s : TYPE_ARGUMENTS) (hs : Ready s) :
    ({ s with typeIndex := s.typeIndex + 1 } : TYPE_ARGUMENTS)
      = setCounter (threadSlot s ((0 : Nat) : Int)) s.numCombinations := by
  simp [threadSlot, setCounter, (ready_set_zero hs)]

theorem putBack_slot (s : TYPE_ARGUMENTS) (hs : Ready s) (r : LoopExit) (K : Nat) (n : Int)
    (hK : r.loopCount = (K : Int)) (ha : r.args = setCounter (threadSlot s (K : Int)) n) :
    putBack s.typeIndex r = setCounter s n := by
  simp only [putBack, ha, hK, threadSlot, setCounter, List.set_set, (ready_set_zero hs)]
  congr 1 <;> simp

theorem threadLoop_printed_view (T : Int) (s : TYPE_ARGUMENTS) (ks : List Nat) :
    (threadLoop T s ks).2.map slotView = (threadLoop T s ks).2 := by
  induction ks with
  | nil => simp [threadLoop]
  | cons k more ih =>
    simp only [threadLoop]
    split_ifs with h1 h2
    · simp
    · simp [slotView, setCounter, threadSlot]
    · exact ih

/-- With enough budget `processType` returns on every ready record, for every
thread level: it leaves the record as it was up to the counter of combinations,
which grows by the number of nodes of the search tree below the record, and it
prints the rows of that tree. -/
theorem processType_char (L : Nat) (M T : Int) :
    ∀ (fuel : Nat) (s : TYPE_ARGUMENTS), Ready s →
      (NUM_AMINO_ACID_TYPES - s.typeIndex) + (M + 1 - s.numAcids).toNat < fuel →
      ∃ e, processType L M T fuel s = some e ∧
        e.args = setCounter s (s.numCombinations
          + (searchTree M T (NUM_AMINO_ACID_TYPES - s.typeIndex) s).2) ∧
        e.printed.map slotView = (searchTree M T (NUM_AMINO_ACID_TYPES - s.typeIndex) s).1 ∧
        (e.invoked.length : Int)
          = 1 + (searchTree M T (NUM_AMINO_ACID_TYPES - s.typeIndex) s).2 := by
  intro fuel
  induction fuel with
  | zero => intro s _ h; omega
  | succ fuel ih =>
    intro s hs hfuel
    have hlen := hs.1
    have hle := hs.2.1
    simp only [processType]
    by_cases h19 : s.typeIndex = NUM_AMINO_ACID_TYPES
    · rw [if_pos h19]
      have h0 : NUM_AMINO_ACID_TYPES - s.typeIndex = 0 := by omega
      rw [h0]
      refine ⟨_, rfl, ?_, ?_, ?_⟩ <;> simp [searchTree, setCounter]
    · rw [if_neg h19]
      have ht : s.typeIndex < NUM_AMINO_ACID_TYPES := lt_of_le_of_ne hle h19
      obtain ⟨d, hd⟩ : ∃ d, NUM_AMINO_ACID_TYPES - s.typeIndex = d + 1 :=
        ⟨NUM_AMINO_ACID_TYPES - s.typeIndex - 1, by omega⟩
      have hd' : NUM_AMINO_ACID_TYPES - (s.typeIndex + 1) = d := by omega
      have hchild : ∀ (k : Nat) (n : Int), ∃ e,
          processType L M T fuel (setCounter (threadSlot s (k : Int)) n) = some e ∧
          e.args = setCounter (threadSlot s (k : Int)) (n + (searchTree M T d (threadSlot s k)).2) ∧
          e.printed.map slotView = (searchTree M T d (threadSlot s k)).1 ∧
          (e.invoked.length : Int) = 1 + (searchTree M T d (threadSlot s k)).2 := by
        intro k n
        have hb : (NUM_AMINO_ACID_TYPES - (setCounter (threadSlot s (k : Int)) n).typeIndex)
            + (M + 1 - (setCounter (threadSlot s (k : Int)) n).numAcids).toNat < fuel := by
          simp only [threadSlot, setCounter]
          omega
        obtain ⟨e, he, ha, hp, hi⟩ := ih _ (ready_child hs ht k n) hb
        have ht' : (setCounter (threadSlot s (k : Int)) n).typeIndex = s.typeIndex + 1 := rfl
        rw [ht', hd', searchTree_counter] at ha hp hi
        exact ⟨e, he, ha, hp, hi⟩
      rw [hd]
      simp only [searchTree]
      by_cases hL : s.typeIndex < L
      · rw [if_pos hL]
        have hall : ∀ ch ∈ (threadLoop T s (List.range (M - s.numAcids + 1).toNat)).1,
            ∃ e, processType L M T fuel ch = some e ∧
              e.args = setCounter ch (ch.numCombinations + (searchTree M T d ch).2) ∧
              e.printed.map slotView = (searchTree M T d ch).1 ∧
              (e.invoked.length : Int) = 1 + (searchTree M T d ch).2 := by
          intro ch hch
          obtain ⟨k, _, rfl⟩ := threadLoop_mem T s _ ch hch
          exact hchild k 1
        obtain ⟨es, hes, h1, h2, h3⟩ := runThreads_char _ (searchTree M T d) _ hall
        have hone : ∀ ch ∈ (threadLoop T s (List.range (M - s.numAcids + 1).toNat)).1,
            ch.numCombinations + (searchTree M T d ch).2 = 1 + (searchTree M T d ch).2 := by
          intro ch hch
          obtain ⟨k, _, rfl⟩ := threadLoop_mem T s _ ch hch
          rfl
        rw [List.map_congr_left hone] at h2
        simp only [hes, searchLoop_eq_threadLoop]
        refine ⟨_, rfl, ?_, ?_, ?_⟩
        · simp only [joinThreads_eq_sum, List.map_map, setCounter]
          congr 1
          rw [← h2]
          congr 1
        · simp only [List.map_append, h1]
          congr 1
          exact threadLoop_printed_view T s _
        · simp only [List.length_cons]
          push_cast
          rw [h3]; ring
      · rw [if_neg hL]
        have hts : s.typeIndex < s.typeCounts.length := by rw [hlen]; exact ht
        obtain ⟨r, hr, K, hK, hra, hrp, hri⟩ :=
          seqLoop_char (processType L M T fuel) M T s hts (searchTree M T d)
            (fun k n _ => hchild k n) (M - s.numAcids + 1).toNat 0 s.numCombinations (fuel + 1)
            (by omega) (by omega)
        rw [← seq_start s hs] at hr
        rw [← List.range_eq_range'] at hra hrp hri
        simp only [Nat.cast_zero] at hr
        rw [hr]
        refine ⟨_, rfl, ?_, hrp, ?_⟩
        · exact putBack_slot s hs r K _ hK hra
        · simp only [List.length_cons]
          push_cast
          rw [hri]; ring

theorem dot_set (w : List Int) : ∀ (c : List Int) (t : Nat) (k : Int), t < c.length →
    (List.zipWith (fun n m => n * m) (c.set t k) w).sum
      = (List.zipWith (fun n m => n * m) c w).sum + (k - c.getD t 0) * w.getD t 0 := by
  induction w with
  | nil => intro c t k _; simp
  | cons m w ih =>
    intro c t k ht
    cases c with
    | nil => simp at ht
    | cons x c =>
      cases t with
      | zero => simp; ring
      | succ t =>
        simp only [List.set_cons_succ, List.zipWith_cons_cons, List.sum_cons, List.getD_cons_succ]
        rw [ih c t k (by simpa using ht)]
        ring

theorem sum_set : ∀ (c : List Int) (t : Nat) (k : Int), t < c.length →
    (c.set t k).sum = c.sum + (k - c.getD t 0) := by
  intro c
  induction c with
  | nil => intro t k ht; simp at ht
  | cons x c ih =>
    intro t k ht
    cases t with
    | zero => simp; ring
    | succ t =>
      simp only [List.set_cons_succ, List.sum_cons, List.getD_cons_succ]
      rw [ih t k (by simpa using ht)]
      ring

theorem massOf_set (c : List Int) (t : Nat) (k : Int) (ht : t < c.length) :
    massOf (c.set t k) = massOf c + (k - c.getD t 0) * typeMasses.getD t 0 :=
  dot_set typeMasses c t k ht

theorem typeMasses_pos (t : Nat) (ht : t < NUM_AMINO_ACID_TYPES) : 0 < typeMasses.getD t 0 := by
  simp only [NUM_AMINO_ACID_TYPES] at ht
  interval_cases t <;> decide

theorem good_child {s : TYPE_ARGUMENTS} (hs : Good s) (ht : s.typeIndex < NUM_AMINO_ACID_TYPES)
    (k : Int) : Good (threadSlot s k) := by
  obtain ⟨hr, hn, hm⟩ := hs
  have hlt : s.typeIndex < s.typeCounts.length := by rw [hr.1]; exact ht
  have h0 : s.typeCounts.getD s.typeIndex 0 = 0 := hr.2.2 _ le_rfl
  refine ⟨ready_child hr ht k 1, ?_, ?_⟩
  · simp only [threadSlot]
    rw [sum_set _ _ _ hlt, h0, hn]; ring
  · simp only [threadSlot]
    rw [massOf_set _ _ _ hlt, h0, hm]; ring

theorem searchLoop_mem (sub : TYPE_ARGUMENTS → List TYPE_ARGUMENTS × Int) (T : Int)
    (s : TYPE_ARGUMENTS) (ks : List Nat) (p : TYPE_ARGUMENTS)
    (h : p ∈ (searchLoop sub T s ks).1) :
    ∃ k ∈ ks, (p = threadSlot s (k : Int) ∧ (threadSlot s (k : Int)).currentMass = T) ∨
      (p ∈ (sub (threadSlot s (k : Int))).1 ∧ (threadSlot s (k : Int)).currentMass < T) := by
  induction ks with
  | nil => simp [searchLoop] at h
  | cons k more ih =>
    simp only [searchLoop, TOLERANCE, add_zero, sub_zero] at h
    split_ifs at h with h1 h2
    · simp at h
    · simp only [List.mem_singleton] at h
      exact ⟨k, by simp, Or.inl ⟨h, le_antisymm (not_lt.mp h1) h2⟩⟩
    · simp only [List.mem_append] at h
      rcases h with h | h
      · exact ⟨k, by simp, Or.inr ⟨h, not_le.mp h2⟩⟩
      · obtain ⟨k', hk', hp⟩ := ih h
        exact ⟨k', by simp [hk'], hp⟩

theorem threadSlot_getD_ne (s : TYPE_ARGUMENTS) (k : Int) (i : Nat) (hi : i ≠ s.typeIndex) :
    (threadSlot s k).typeCounts.getD i 0 = s.typeCounts.getD i 0 := by
  simp only [threadSlot]
  rw [List.getD_eq_getElem?_getD, List.getElem?_set_ne (Ne.symm hi), ← List.getD_eq_getElem?_getD]

theorem threadSlot_getD_self (s : TYPE_ARGUMENTS) (k : Int)
    (ht : s.typeIndex < s.typeCounts.length) :
    (threadSlot s k).typeCounts.getD s.typeIndex 0 = k := by
  simp only [threadSlot]
  rw [List.getD_eq_getElem?_getD, List.getElem?_set_self ht, Option.getD_some]

/-- Every row of the search tree below a consistent record is consistent, has
the target mass, is within the cap and keeps the counts already assigned. -/
theorem searchTree_sound (M T : Int) : ∀ (d : Nat) (s : TYPE_ARGUMENTS), Good s →
    d = NUM_AMINO_ACID_TYPES - s.typeIndex → ∀ p ∈ (searchTree M T d s).1,
      Good p ∧ p.currentMass = T ∧ p.numAcids ≤ M ∧
        ∀ i, i < s.typeIndex → p.typeCounts.getD i 0 = s.typeCounts.getD i 0 := by
  intro d
  induction d with
  | zero => intro s _ _ p hp; simp [searchTree] at hp
  | succ d ih =>
    intro s hs hd p hp
    have ht : s.typeIndex < NUM_AMINO_ACID_TYPES := by omega
    simp only [searchTree] at hp
    obtain ⟨k, hk, hp | hp⟩ := searchLoop_mem _ T s _ p hp
    · obtain ⟨rfl, hm⟩ := hp
      refine ⟨good_child hs ht k, hm, ?_, ?_⟩
      · simp only [List.mem_range] at hk
        simp only [threadSlot]
        omega
      · intro i hi
        exact threadSlot_getD_ne s k i (by omega)
    · obtain ⟨hp, _⟩ := hp
      obtain ⟨h1, h2, h3, h4⟩ := ih (threadSlot s k) (good_child hs ht k)
        (by simp only [threadSlot]; omega) p hp
      refine ⟨h1, h2, h3, ?_⟩
      intro i hi
      rw [h4 i (by simp only [threadSlot]; omega)]
      exact threadSlot_getD_ne s k i (by omega)

theorem searchTree_at (M T : Int) (d : Nat) (s : TYPE_ARGUMENTS) (hs : Good s)
    (hd : d + 1 = NUM_AMINO_ACID_TYPES - s.typeIndex) (k : Nat) (p : TYPE_ARGUMENTS)
    (hp : p = threadSlot s (k : Int) ∨ p ∈ (searchTree M T d (threadSlot s (k : Int))).1) :
    p.typeCounts.getD s.typeIndex 0 = (k : Int) := by
  have ht : s.typeIndex < NUM_AMINO_ACID_TYPES := by omega
  have hlt : s.typeIndex < s.typeCounts.length := by rw [hs.1.1]; exact ht
  rcases hp with rfl | hp
  · exact threadSlot_getD_self s k hlt
  · obtain ⟨_, _, _, h4⟩ := searchTree_sound M T d (threadSlot s k) (good_child hs ht k)
      (by simp only [threadSlot]; omega) p hp
    rw [h4 s.typeIndex (by simp [threadSlot])]
    exact threadSlot_getD_self s k hlt

theorem searchLoop_nodup (sub : TYPE_ARGUMENTS → List TYPE_ARGUMENTS × Int) (T : Int)
    (s : TYPE_ARGUMENTS)
    (hsub : ∀ k : Nat, ((sub (threadSlot s (k : Int))).1.map (fun p => p.typeCounts)).Nodup)
    (hat : ∀ (k : Nat) (p : TYPE_ARGUMENTS),
      p = threadSlot s (k : Int) ∨ p ∈ (sub (threadSlot s (k : Int))).1 →
      p.typeCounts.getD s.typeIndex 0 = (k : Int)) :
    ∀ ks : List Nat, ks.Nodup →
      ((searchLoop sub T s ks).1.map (fun p => p.typeCounts)).Nodup := by
  intro ks
  induction ks with
  | nil => intro _; simp [searchLoop]
  | cons k more ih =>
    intro hnd
    rw [List.nodup_cons] at hnd
    simp only [searchLoop]
    split_ifs with h1 h2
    · simp
    · simp
    · rw [List.map_append, List.nodup_append]
      refine ⟨hsub k, ih hnd.2, ?_⟩
      intro c hc1 hc2
      simp only [List.mem_map] at hc1 hc2
      obtain ⟨p, hp, rfl⟩ := hc1
      obtain ⟨q, hq, hqc⟩ := hc2
      obtain ⟨k', hk', hq'⟩ := searchLoop_mem sub T s more q hq
      have e1 := hat k p (Or.inr hp)
      have e2 := hat k' q (hq'.elim (fun h => Or.inl h.1) (fun h => Or.inr h.1))
      rw [hqc, e1] at e2
      have : k = k' := by exact_mod_cast e2
      subst this
      exact hnd.1 hk'

/-- The count vectors of the rows of a search tree are pairwise different. -/
theorem searchTree_nodup (M T : Int) : ∀ (d : Nat) (s : TYPE_ARGUMENTS), Good s →
    d = NUM_AMINO_ACID_TYPES - s.typeIndex →
    ((searchTree M T d s).1.map (fun p => p.typeCounts)).Nodup := by
  intro d
  induction d with
  | zero => intro s _ _; simp [searchTree]
  | succ d ih =>
    intro s hs hd
    have ht : s.typeIndex < NUM_AMINO_ACID_TYPES := by omega
    simp only [searchTree]
    apply searchLoop_nodup
    · intro k
      exact ih _ (good_child hs ht k) (by simp only [threadSlot]; omega)
    · intro k p hp
      exact searchTree_at M T d s hs hd k p hp
    · exact List.nodup_range _

theorem zeroFrom_get (t : Nat) (v : List Int) (i : Nat) :
    (zeroFrom t v)[i]? = if i < t then v[i]? else if i < v.length then some 0 else none := by
  unfold zeroFrom
  by_cases h1 : i < t
  · rw [if_pos h1]
    by_cases h2 : i < v.length
    · rw [List.getElem?_append_left (by simp; omega), List.getElem?_take_of_lt h1]
    · rw [List.getElem?_eq_none (by simp; omega), List.getElem?_eq_none (by omega)]
  · rw [if_neg h1]
    by_cases h2 : i < v.length
    · rw [if_pos h2, List.getElem?_append_right (by simp; omega)]
      rw [List.getElem?_replicate]
      simp
      omega
    · rw [if_neg h2, List.getElem?_eq_none (by simp; omega)]

theorem zeroFrom_length (t : Nat) (c : List Int) : (zeroFrom t c).length = c.length := by
  simp [zeroFrom]; omega

theorem zeroFrom_getD (t : Nat) (c : List Int) (i : Nat) :
    (zeroFrom t c).getD i 0 = if i < t then c.getD i 0 else 0 := by
  rw [List.getD_eq_getElem?_getD, zeroFrom_get]
  split_ifs <;> simp [List.getD_eq_getElem?_getD]

theorem zeroFrom_full (c : List Int) : zeroFrom c.length c = c := by
  simp [zeroFrom]

theorem zeroFrom_set (t : Nat) (c : List Int) (ht : t < c.length) :
    (zeroFrom t c).set t (c.getD t 0) = zeroFrom (t + 1) c := by
  apply List.ext_getElem?
  intro i
  rw [List.getElem?_set, zeroFrom_get, zeroFrom_get, zeroFrom_length]
  by_cases h : t = i
  · subst h
    simp [ht, List.getD_eq_getElem?_getD, List.getElem?_eq_getElem ht]
  · rw [if_neg h]
    by_cases h1 : i < t
    · rw [if_pos h1, if_pos (show i < t + 1 by omega)]
    · rw [if_neg h1, if_neg (show ¬ i < t + 1 by omega)]

theorem getD_nonneg (c : List Int) (hnn : ∀ x ∈ c, 0 ≤ x) (i : Nat) : 0 ≤ c.getD i 0 := by
  rw [List.getD_eq_getElem?_getD]
  by_cases h : i < c.length
  · rw [List.getElem?_eq_getElem h, Option.getD_some]
    exact hnn _ (List.getElem_mem h)
  · rw [List.getElem?_eq_none (by omega)]
    simp

theorem massOf_zeroFrom_succ (t : Nat) (c : List Int) (ht : t < c.length) :
    massOf (zeroFrom (t + 1) c) = massOf (zeroFrom t c) + c.getD t 0 * typeMasses.getD t 0 := by
  rw [← zeroFrom_set t c ht, massOf_set _ _ _ (by rw [zeroFrom_length]; exact ht),
    zeroFrom_getD, if_neg (lt_irrefl t)]
  ring

theorem sum_zeroFrom_succ (t : Nat) (c : List Int) (ht : t < c.length) :
    (zeroFrom (t + 1) c).sum = (zeroFrom t c).sum + c.getD t 0 := by
  rw [← zeroFrom_set t c ht, sum_set _ _ _ (by rw [zeroFrom_length]; exact ht),
    zeroFrom_getD, if_neg (lt_irrefl t)]
  ring

theorem zeroFrom_le (c : List Int) (hlen : c.length = NUM_AMINO_ACID_TYPES)
    (hnn : ∀ x ∈ c, 0 ≤ x) : ∀ (n t : Nat), t + n = NUM_AMINO_ACID_TYPES →
      massOf (zeroFrom t c) ≤ massOf c ∧ (zeroFrom t c).sum ≤ c.sum ∧
        (massOf (zeroFrom t c) = massOf c → zeroFrom t c = c) := by
  intro n
  induction n with
  | zero =>
    intro t ht
    have : t = c.length := by omega
    subst this
    rw [zeroFrom_full]
    simp
  | succ n ih =>
    intro t ht
    have htl : t < c.length := by omega
    obtain ⟨h1, h2, h3⟩ := ih (t + 1) (by omega)
    have hw := typeMasses_pos t (by omega)
    have hc := getD_nonneg c hnn t
    rw [massOf_zeroFrom_succ t c htl] at h1 h3
    rw [sum_zeroFrom_succ t c htl] at h2
    have hprod : 0 ≤ c.getD t 0 * typeMasses.getD t 0 := mul_nonneg hc hw.le
    refine ⟨by omega, by omega, ?_⟩
    intro heq
    have hz : c.getD t 0 * typeMasses.getD t 0 = 0 := by omega
    have hc0 : c.getD t 0 = 0 := by
      rcases mul_eq_zero.mp hz with h | h
      · exact h
      · omega
    have hstep : zeroFrom t c = zeroFrom (t + 1) c := by
      rw [← zeroFrom_set t c htl, hc0]
      apply List.ext_getElem?
      intro i
      rw [List.getElem?_set, zeroFrom_get, zeroFrom_length]
      by_cases h : t = i
      · subst h
        simp [htl]
      · rw [if_neg h]
    rw [hstep]
    exact h3 (by omega)

theorem searchLoop_mem_of (sub : TYPE_ARGUMENTS → List TYPE_ARGUMENTS × Int) (T : Int)
    (s : TYPE_ARGUMENTS) (k : Nat) (p : TYPE_ARGUMENTS)
    (hbelow : ∀ j : Nat, j < k → (threadSlot s (j : Int)).currentMass < T)
    (hp : ((threadSlot s (k : Int)).currentMass = T ∧ p = threadSlot s (k : Int)) ∨
      ((threadSlot s (k : Int)).currentMass < T ∧ p ∈ (sub (threadSlot s (k : Int))).1)) :
    ∀ ks : List Nat, ks.Pairwise (fun a b => a < b) → k ∈ ks →
      p ∈ (searchLoop sub T s ks).1 := by
  intro ks
  induction ks with
  | nil => intro _ h; simp at h
  | cons j more ih =>
    intro hpw hk
    rw [List.pairwise_cons] at hpw
    simp only [searchLoop, TOLERANCE, add_zero, sub_zero]
    rcases List.mem_cons.mp hk with rfl | hk'
    · rcases hp with ⟨hm, rfl⟩ | ⟨hm, hp⟩
      · rw [if_neg (by omega), if_pos (by omega)]
        simp
      · rw [if_neg (by omega), if_neg (by omega)]
        simp [hp]
    · have hj := hbelow j (hpw.1 k hk')
      rw [if_neg (by omega), if_neg (by omega)]
      simp only [List.mem_append]
      exact Or.inr (ih hpw.2 hk')

/-- A vector of non-negative counts within the cap and of the target mass is a
row of the search tree below every consistent record that agrees with it on
the types already assigned. -/
theorem searchTree_complete (M T : Int) (c : List Int) (hlen : c.length = NUM_AMINO_ACID_TYPES)
    (hnn : ∀ x ∈ c, 0 ≤ x) (hsum : c.sum ≤ M) (hmass : massOf c = T) :
    ∀ (d : Nat) (s : TYPE_ARGUMENTS), Good s → d = NUM_AMINO_ACID_TYPES - s.typeIndex →
      s.typeIndex < NUM_AMINO_ACID_TYPES → s.typeCounts = zeroFrom s.typeIndex c →
      ∃ p ∈ (searchTree M T d s).1, p.typeCounts = c := by
  intro d
  induction d with
  | zero => intro s _ hd ht _; omega
  | succ d ih =>
    intro s hs hd ht hc
    have htl : s.typeIndex < c.length := by rw [hlen]; exact ht
    have hk : (((c.getD s.typeIndex 0).toNat : Nat) : Int) = c.getD s.typeIndex 0 :=
      Int.toNat_of_nonneg (getD_nonneg c hnn _)
    generalize (c.getD s.typeIndex 0).toNat = k at hk
    have hchild : (threadSlot s (k : Int)).typeCounts = zeroFrom (s.typeIndex + 1) c := by
      simp only [threadSlot]
      rw [hc, hk, zeroFrom_set _ _ htl]
    have hgood := good_child hs ht (k : Int)
    obtain ⟨hle1, hle2, hle3⟩ := zeroFrom_le c hlen hnn (NUM_AMINO_ACID_TYPES - (s.typeIndex + 1))
      (s.typeIndex + 1) (by omega)
    have hcm : (threadSlot s (k : Int)).currentMass = massOf (zeroFrom (s.typeIndex + 1) c) := by
      rw [hgood.2.2, hchild]
    have hcs : (threadSlot s (k : Int)).numAcids = (zeroFrom (s.typeIndex + 1) c).sum := by
      rw [hgood.2.1, hchild]
    have hw := typeMasses_pos s.typeIndex ht
    have hbelow : ∀ j : Nat, j < k → (threadSlot s (j : Int)).currentMass < T := by
      intro j hj
      have h1 : (threadSlot s (j : Int)).currentMass < (threadSlot s (k : Int)).currentMass := by
        simp only [threadSlot]
        have : (j : Int) * typeMasses.getD s.typeIndex 0 < (k : Int) * typeMasses.getD s.typeIndex 0 :=
          mul_lt_mul_of_pos_right (by exact_mod_cast hj) hw
        omega
      omega
    have hkmem : k ∈ List.range (M - s.numAcids + 1).toNat := by
      rw [List.mem_range]
      have : s.numAcids + (k : Int) = (threadSlot s (k : Int)).numAcids := rfl
      omega
    simp only [searchTree]
    rcases lt_or_eq_of_le (show (threadSlot s (k : Int)).currentMass ≤ T by omega) with hlt | heq
    · have ht' : s.typeIndex + 1 < NUM_AMINO_ACID_TYPES := by
        by_contra hcon
        have h19 : s.typeIndex + 1 = c.length := by omega
        rw [hcm, h19, zeroFrom_full] at hlt
        omega
      obtain ⟨p, hp, hpc⟩ := ih (threadSlot s (k : Int)) hgood
        (by simp only [threadSlot]; omega) ht' hchild
      exact ⟨p, searchLoop_mem_of _ T s k p hbelow (Or.inr ⟨hlt, hp⟩) _
        (List.pairwise_lt_range _) hkmem, hpc⟩
    · refine ⟨threadSlot s (k : Int), searchLoop_mem_of _ T s k _ hbelow (Or.inl ⟨heq, rfl⟩) _
        (List.pairwise_lt_range _) hkmem, ?_⟩
      rw [hchild]
      exact hle3 (by omega)

theorem zeroArguments_good : Good zeroArguments := by
  refine ⟨⟨rfl, by decide, ?_⟩, by decide, by decide⟩
  intro i _
  simp only [zeroArguments, List.getD_eq_getElem?_getD, List.getElem?_replicate]
  split_ifs <;> rfl

theorem zeroArguments_zeroFrom (c : List Int) (hlen : c.length = NUM_AMINO_ACID_TYPES) :
    zeroArguments.typeCounts = zeroFrom zeroArguments.typeIndex c := by
  simp [zeroArguments, zeroFrom, hlen]

theorem seqLoop_frame (recurse : TYPE_ARGUMENTS → Option Effect) (L : Nat) (M T : Int) (t : Nat)
    (a m : Int)
    (hrec : ∀ x : TYPE_ARGUMENTS, x.typeIndex = t + 1 → a ≤ x.numAcids →
      ∃ e, recurse x = some e ∧ Traced L M x e) :
    ∀ (len k : Nat) (x : TYPE_ARGUMENTS) (lf : Nat), x.numAcids = a + k → x.typeIndex = t + 1 →
      x.currentMass = m + k * typeMasses.getD t 0 → k + len = (M - a + 1).toNat → len < lf →
      ∃ r, seqLoop recurse M T t lf x (k : Int) = some r ∧
        r.args.numAcids = a + r.loopCount ∧ r.args.typeIndex = t + 1 ∧
        r.args.currentMass = m + r.loopCount * typeMasses.getD t 0 ∧
        (∀ q ∈ r.invoked, q.numAcids ≤ M ∧ t < q.typeIndex) ∧
        ∀ p ∈ r.printed, p.numAcids ≤ M := by
  intro len
  induction len with
  | zero =>
    intro k x lf hxa hxt hxm hk hlf
    obtain ⟨lf, rfl⟩ : ∃ n, lf = n + 1 := ⟨lf - 1, by omega⟩
    have hg : ¬ (x.numAcids ≤ M) := by omega
    exact ⟨_, by simp only [seqLoop]; rw [if_neg hg], hxa, hxt, hxm, by simp, by simp⟩
  | succ len ih =>
    intro k x lf hxa hxt hxm hk hlf
    obtain ⟨lf, rfl⟩ : ∃ n, lf = n + 1 := ⟨lf - 1, by omega⟩
    have hg : x.numAcids ≤ M := by omega
    simp only [seqLoop]
    rw [if_pos hg]
    by_cases h1 : x.currentMass > T + TOLERANCE
    · rw [if_pos h1]
      exact ⟨_, rfl, hxa, hxt, hxm, by simp, by simp⟩
    · rw [if_neg h1]
      by_cases h2 : x.currentMass ≥ T - TOLERANCE
      · rw [if_pos h2]
        exact ⟨_, rfl, hxa, hxt, hxm, by simp, by simpa using hg⟩
      · rw [if_neg h2]
        obtain ⟨e, he, ha, ht, hm, ⟨rest, hinv, hrest, _⟩, hpr⟩ := hrec x hxt (by omega)
        obtain ⟨r, hr, hra, hrt, hrm, hri, hrp⟩ := ih (k + 1) (addOne t e.args) lf
          (by simp only [addOne, ha, hxa]; push_cast; ring)
          (by simp only [addOne, ht, hxt])
          (by simp only [addOne, hm, hxm]; push_cast; ring)
          (by omega) (by omega)
        rw [Nat.cast_succ] at hr
        rw [he]
        simp only [hr]
        refine ⟨_, rfl, hra, hrt, hrm, ?_, ?_⟩
        · intro q hq
          simp only [List.mem_append, hinv, List.mem_cons] at hq
          rcases hq with (rfl | hq) | hq
          · exact ⟨hg, by omega⟩
          · exact ⟨(hrest q hq).1, by have := (hrest q hq).2; omega⟩
          · exact hri q hq
        · intro p hp
          simp only [List.mem_append] at hp
          rcases hp with hp | hp
          · exact hpr p hp
          · exact hrp p hp

theorem runThreads_all (body : TYPE_ARGUMENTS → Option Effect) (P : TYPE_ARGUMENTS → Effect → Prop)
    (l : List TYPE_ARGUMENTS) (h : ∀ ch ∈ l, ∃ e, body ch = some e ∧ P ch e) :
    ∃ es, runThreads body l = some es ∧ ∀ e ∈ es, ∃ ch ∈ l, P ch e := by
  induction l with
  | nil => exact ⟨[], rfl, by simp⟩
  | cons ch more ih =>
    obtain ⟨e, he, hP⟩ := h ch (by simp)
    obtain ⟨es, hes, hall⟩ := ih (fun c hc => h c (by simp [hc]))
    refine ⟨e :: es, by simp [runThreads, he, hes], ?_⟩
    intro e' he'
    rcases List.mem_cons.mp he' with rfl | he'
    · exact ⟨ch, by simp, hP⟩
    · obtain ⟨c, hc, hPc⟩ := hall e' he'
      exact ⟨c, by simp [hc], hPc⟩

theorem threadLoop_printed_mem (T : Int) (s : TYPE_ARGUMENTS) (ks : List Nat)
    (p : TYPE_ARGUMENTS) (h : p ∈ (threadLoop T s ks).2) :
    ∃ k ∈ ks, p = threadSlot s (k : Int) := by
  induction ks with
  | nil => simp [threadLoop] at h
  | cons k more ih =>
    simp only [threadLoop] at h
    split_ifs at h with h1 h2
    · simp at h
    · simp only [List.mem_singleton] at h
      exact ⟨k, by simp, h⟩
    · obtain ⟨k', hk', e⟩ := ih h
      exact ⟨k', by simp [hk'], e⟩

/-- With enough budget `processType` returns on every record with a type index
up to 19, whatever its counts, and the run is `Traced`. -/
theorem processType_traced (L : Nat) (M T : Int) :
    ∀ (fuel : Nat) (s : TYPE_ARGUMENTS), s.typeIndex ≤ NUM_AMINO_ACID_TYPES →
      (NUM_AMINO_ACID_TYPES - s.typeIndex) + (M + 1 - s.numAcids).toNat < fuel →
      ∃ e, processType L M T fuel s = some e ∧ Traced L M s e := by
  intro fuel
  induction fuel with
  | zero => intro s _ h; omega
  | succ fuel ih =>
    intro s hle hfuel
    simp only [processType]
    by_cases h19 : s.typeIndex = NUM_AMINO_ACID_TYPES
    · rw [if_pos h19]
      exact ⟨_, rfl, rfl, rfl, rfl, ⟨[], rfl, by simp, by simp⟩, by simp⟩
    · rw [if_neg h19]
      have ht : s.typeIndex < NUM_AMINO_ACID_TYPES := lt_of_le_of_ne hle h19
      by_cases hL : s.typeIndex < L
      · rw [if_pos hL]
        have hrange : ∀ k ∈ List.range (M - s.numAcids + 1).toNat, s.numAcids + (k : Int) ≤ M := by
          intro k hk
          rw [List.mem_range] at hk
          omega
        obtain ⟨es, hes, hall⟩ := runThreads_all (processType L M T fuel)
          (fun ch e => Traced L M ch e ∧ ∃ k : Nat, s.numAcids + (k : Int) ≤ M ∧
            ch = threadSlot s (k : Int))
          (threadLoop T s (List.range (M - s.numAcids + 1).toNat)).1 (by
            intro ch hch
            obtain ⟨k, hk, rfl⟩ := threadLoop_mem T s _ ch hch
            obtain ⟨e, he, htr⟩ := ih (threadSlot s (k : Int))
              (by simp only [threadSlot]; omega) (by simp only [threadSlot]; omega)
            exact ⟨e, he, htr, k, hrange k hk, rfl⟩)
        simp only [hes]
        refine ⟨_, rfl, rfl, rfl, rfl, ⟨_, rfl, ?_, ?_⟩, ?_⟩
        · intro q hq
          simp only [List.mem_flatten, List.mem_map] at hq
          obtain ⟨_, ⟨e, he, rfl⟩, hq⟩ := hq
          obtain ⟨ch, _, ⟨_, _, _, ⟨rest, hinv, hrest, _⟩, _⟩, k, hk, rfl⟩ := hall e he
          rw [hinv] at hq
          rcases List.mem_cons.mp hq with rfl | hq
          · exact ⟨hk, by simp [threadSlot]⟩
          · have := hrest q hq
            exact ⟨this.1, by have h2 := this.2; simp only [threadSlot] at h2; omega⟩
        · intro _ q hq hqt
          simp only [List.mem_flatten, List.mem_map] at hq
          obtain ⟨_, ⟨e, he, rfl⟩, hq⟩ := hq
          obtain ⟨ch, _, ⟨_, _, _, ⟨rest, hinv, hrest, _⟩, _⟩, k, hk, rfl⟩ := hall e he
          rw [hinv] at hq
          rcases List.mem_cons.mp hq with rfl | hq
          · exact ⟨k, hk, rfl⟩
          · have h2 := (hrest q hq).2
            simp only [threadSlot] at h2
            omega
        · intro p hp
          simp only [List.mem_append, List.mem_flatten, List.mem_map] at hp
          rcases hp with ⟨_, ⟨e, he, rfl⟩, hp⟩ | hp
          · obtain ⟨ch, _, ⟨_, _, _, _, hpr⟩, _⟩ := hall e he
            exact hpr p hp
          · obtain ⟨k, hk, rfl⟩ := threadLoop_printed_mem T s _ p hp
            exact hrange k hk
      · rw [if_neg hL]
        obtain ⟨r, hr, hra, hrt, hrm, hri, hrp⟩ :=
          seqLoop_frame (processType L M T fuel) L M T s.typeIndex s.numAcids s.currentMass
            (fun x hxt hxa => ih x (by omega) (by omega))
            (M - s.numAcids + 1).toNat 0 { s with typeIndex := s.typeIndex + 1 } (fuel + 1)
            (by simp) rfl (by simp) (by omega) (by omega)
        simp only [Nat.cast_zero] at hr
        rw [hr]
        refine ⟨_, rfl, ?_, ?_, ?_, ⟨_, rfl, hri, fun h => absurd h hL⟩, hrp⟩
        · simp only [putBack, hra]; ring
        · simp only [putBack, hrt]; omega
        · simp only [putBack, hrm]; ring

theorem searchLoop_count_nonneg (sub : TYPE_ARGUMENTS → List TYPE_ARGUMENTS × Int) (T : Int)
    (s : TYPE_ARGUMENTS) (hsub : ∀ x, 0 ≤ (sub x).2) (ks : List Nat) :
    0 ≤ (searchLoop sub T s ks).2 := by
  induction ks with
  | nil => simp [searchLoop]
  | cons k more ih =>
    simp only [searchLoop]
    split_ifs
    · simp
    · simp
    · have := hsub (threadSlot s (k : Int))
      simp only
      omega

theorem searchTree_count_nonneg (M T : Int) : ∀ (d : Nat) (s : TYPE_ARGUMENTS),
    0 ≤ (searchTree M T d s).2 := by
  intro d
  induction d with
  | zero => intro s; simp [searchTree]
  | succ d ih =>
    intro s
    simp only [searchTree]
    exact searchLoop_count_nonneg _ T s ih _

theorem processType_zero (L : Nat) (M T : Int) (fuel : Nat)
    (hfuel : NUM_AMINO_ACID_TYPES + (M + 1).toNat < fuel) :
    ∃ e, processType L M T fuel zeroArguments = some e ∧
      e.args = setCounter zeroArguments (searchTree M T NUM_AMINO_ACID_TYPES zeroArguments).2 ∧
      e.printed.map slotView = (searchTree M T NUM_AMINO_ACID_TYPES zeroArguments).1 ∧
      (e.invoked.length : Int) = 1 + (searchTree M T NUM_AMINO_ACID_TYPES zeroArguments).2 := by
  obtain ⟨e, he, ha, hp, hi⟩ := processType_char L M T fuel zeroArguments zeroArguments_good.1
    (by simpa [zeroArguments] using hfuel)
  refine ⟨e, he, ?_, hp, hi⟩
  rw [ha]
  simp [zeroArguments]

theorem printed_counts (printed : List TYPE_ARGUMENTS) :
    printed.map (fun p => p.typeCounts) = (printed.map slotView).map (fun p => p.typeCounts) := by
  rw [List.map_map]
  rfl

/-- C1 (completeness of the threaded search): for every target mass `T` and
every cap `M` with `0 ≤ M ≤ 20`, a run of `processType` from the all-zero
record returns, and among the rows it hands to `printCounts` is every vector
`c` of 19 non-negative counts with `sum c ≤ M` and mass `T`; the search does
not stop at the first match. -/
theorem processType_emits_every_match (L : Nat) (M T : Int) (hM0 : 0 ≤ M)
    (hM : M ≤ MAX_PEPTIDE_SIZE) (c : List Int) (hlen : c.length = NUM_AMINO_ACID_TYPES)
    (hnn : ∀ x ∈ c, 0 ≤ x) (hsum : c.sum ≤ M) (hmass : massOf c = T) (fuel : Nat)
    (hfuel : NUM_AMINO_ACID_TYPES + (M + 1).toNat < fuel) :
    ∃ e, processType L M T fuel zeroArguments = some e ∧
      c ∈ e.printed.map (fun p => p.typeCounts) := by
  obtain ⟨e, he, _, hp, _⟩ := processType_zero L M T fuel hfuel
  refine ⟨e, he, ?_⟩
  rw [printed_counts, hp]
  obtain ⟨p, hp1, hp2⟩ := searchTree_complete M T c hlen hnn hsum hmass NUM_AMINO_ACID_TYPES
    zeroArguments zeroArguments_good rfl (by decide) (zeroArguments_zeroFrom c hlen)
  exact List.mem_map.mpr ⟨p, hp1, hp2⟩

/-- Witness of C1: the threaded search for 252.2229 Da with cap 4 emits the
row of one serine and one glutamate. -/
theorem processType_emits_every_match_witness :
    ∃ e, processType THREAD_LEVEL 4 2522229 25 zeroArguments = some e ∧
      [0, 0, 1, 0, 0, 0, 0, 0, 0, 0, 0, 0, 1, 0, 0, 0, 0, 0, 0]
        ∈ e.printed.map (fun p => p.typeCounts) :=
  processType_emits_every_match THREAD_LEVEL 4 2522229 (by decide) (by decide)
    [0, 0, 1, 0, 0, 0, 0, 0, 0, 0, 0, 0, 1, 0, 0, 0, 0, 0, 0] (by decide) (by decide)
    (by decide) (by decide) 25 (by decide)

/-- C2 (soundness of the threaded search): for every target `T` and cap `M`,
every record handed to `printCounts` during a run from the all-zero record has
counts whose mass is within `TOLERANCE` of `T`, that is equal to `T`, and the
`currentMass` printed with the row is that mass. -/
theorem processType_rows_match_target (L : Nat) (M T : Int) (fuel : Nat)
    (hfuel : NUM_AMINO_ACID_TYPES + (M + 1).toNat < fuel) :
    ∃ e, processType L M T fuel zeroArguments = some e ∧
      ∀ p ∈ e.printed, T - TOLERANCE ≤ massOf p.typeCounts ∧
        massOf p.typeCounts ≤ T + TOLERANCE ∧ massOf p.typeCounts = T ∧
        p.currentMass = massOf p.typeCounts := by
  obtain ⟨e, he, _, hp, _⟩ := processType_zero L M T fuel hfuel
  refine ⟨e, he, ?_⟩
  intro p hpm
  have hmem : slotView p ∈ (searchTree M T NUM_AMINO_ACID_TYPES zeroArguments).1 := by
    rw [← hp]
    exact List.mem_map_of_mem _ hpm
  obtain ⟨hgood, hT, _, _⟩ := searchTree_sound M T NUM_AMINO_ACID_TYPES zeroArguments
    zeroArguments_good rfl _ hmem
  have h1 : p.currentMass = massOf p.typeCounts := hgood.2.2
  have h2 : p.currentMass = T := hT
  simp only [TOLERANCE]
  omega

/-- Witness of C2: the threaded search for 150.1338 Da with cap 2. -/
theorem processType_rows_match_target_witness :
    ∃ e, processType THREAD_LEVEL 2 1501338 23 zeroArguments = some e ∧
      ∀ p ∈ e.printed, 1501338 - TOLERANCE ≤ massOf p.typeCounts ∧
        massOf p.typeCounts ≤ 1501338 + TOLERANCE ∧ massOf p.typeCounts = 1501338 ∧
        p.currentMass = massOf p.typeCounts :=
  processType_rows_match_target THREAD_LEVEL 2 1501338 23 (by decide)

/-- C3 (no duplicates): for every target `T` and cap `M`, the list of count
vectors a run of `processType` from the all-zero record hands to `printCounts`
has no repeated element. -/
theorem processType_rows_nodup (L : Nat) (M T : Int) (fuel : Nat)
    (hfuel : NUM_AMINO_ACID_TYPES + (M + 1).toNat < fuel) :
    ∃ e, processType L M T fuel zeroArguments = some e ∧
      (e.printed.map (fun p => p.typeCounts)).Nodup := by
  obtain ⟨e, he, _, hp, _⟩ := processType_zero L M T fuel hfuel
  refine ⟨e, he, ?_⟩
  rw [printed_counts, hp]
  exact searchTree_nodup M T NUM_AMINO_ACID_TYPES zeroArguments zeroArguments_good rfl

/-- Witness of C3: the threaded search for 252.2229 Da with cap 4. -/
theorem processType_rows_nodup_witness :
    ∃ e, processType THREAD_LEVEL 4 2522229 25 zeroArguments = some e ∧
      (e.printed.map (fun p => p.typeCounts)).Nodup :=
  processType_rows_nodup THREAD_LEVEL 4 2522229 25 (by decide)

/-- C4 (the match set does not depend on the thread level): for every target
`T`, every cap `M ≤ 20` and every two thread levels in `0..19` (level 0 being
the fully sequential search), the runs of `processType` from the all-zero
record hand the same multiset of count vectors to `printCounts`. -/
theorem processType_rows_thread_level_independent (L₁ L₂ : Nat)
    (h₁ : L₁ ≤ NUM_AMINO_ACID_TYPES) (h₂ : L₂ ≤ NUM_AMINO_ACID_TYPES) (M T : Int)
    (hM : M ≤ MAX_PEPTIDE_SIZE) (fuel₁ fuel₂ : Nat)
    (hfuel₁ : NUM_AMINO_ACID_TYPES + (M + 1).toNat < fuel₁)
    (hfuel₂ : NUM_AMINO_ACID_TYPES + (M + 1).toNat < fuel₂) :
    ∃ e₁ e₂, processType L₁ M T fuel₁ zeroArguments = some e₁ ∧
      processType L₂ M T fuel₂ zeroArguments = some e₂ ∧
      (↑(e₁.printed.map (fun p => p.typeCounts)) : Multiset (List Int))
        = ↑(e₂.printed.map (fun p => p.typeCounts)) := by
  obtain ⟨e₁, he₁, _, hp₁, _⟩ := processType_zero L₁ M T fuel₁ hfuel₁
  obtain ⟨e₂, he₂, _, hp₂, _⟩ := processType_zero L₂ M T fuel₂ hfuel₂
  refine ⟨e₁, e₂, he₁, he₂, ?_⟩
  rw [printed_counts e₁.printed, printed_counts e₂.printed, hp₁, hp₂]

/-- Witness of C4: thread level 5 against the fully sequential search, for
252.2229 Da with cap 4. -/
theorem processType_rows_thread_level_independent_witness :
    ∃ e₁ e₂, processType THREAD_LEVEL 4 2522229 25 zeroArguments = some e₁ ∧
      processType 0 4 2522229 25 zeroArguments = some e₂ ∧
      (↑(e₁.printed.map (fun p => p.typeCounts)) : Multiset (List Int))
        = ↑(e₂.printed.map (fun p => p.typeCounts)) :=
  processType_rows_thread_level_independent THREAD_LEVEL 0 (by decide) (by decide) 4 2522229
    (by decide) 25 25 (by decide) (by decide)

/-- C5 (the statistics do not depend on the thread level): for every target
`T`, every cap `M ≤ 20` and every two thread levels in `0..19`, the value of
`numCombinations` in the root record after `processType` returns (with the
counts of the threads added at the join) is the same; in particular it is the
same for level 5 and for the fully sequential level 0. -/
theorem processType_count_thread_level_independent (L₁ L₂ : Nat)
    (h₁ : L₁ ≤ NUM_AMINO_ACID_TYPES) (h₂ : L₂ ≤ NUM_AMINO_ACID_TYPES) (M T : Int)
    (hM : M ≤ MAX_PEPTIDE_SIZE) (fuel₁ fuel₂ : Nat)
    (hfuel₁ : NUM_AMINO_ACID_TYPES + (M + 1).toNat < fuel₁)
    (hfuel₂ : NUM_AMINO_ACID_TYPES + (M + 1).toNat < fuel₂) :
    ∃ e₁ e₂, processType L₁ M T fuel₁ zeroArguments = some e₁ ∧
      processType L₂ M T fuel₂ zeroArguments = some e₂ ∧
      e₁.args.numCombinations = e₂.args.numCombinations := by
  obtain ⟨e₁, he₁, ha₁, _, _⟩ := processType_zero L₁ M T fuel₁ hfuel₁
  obtain ⟨e₂, he₂, ha₂, _, _⟩ := processType_zero L₂ M T fuel₂ hfuel₂
  exact ⟨e₁, e₂, he₁, he₂, by rw [ha₁, ha₂]⟩

/-- Witness of C5: thread level 5 against the fully sequential search, for
252.2229 Da with cap 4. -/
theorem processType_count_thread_level_independent_witness :
    ∃ e₁ e₂, processType THREAD_LEVEL 4 2522229 25 zeroArguments = some e₁ ∧
      processType 0 4 2522229 25 zeroArguments = some e₂ ∧
      e₁.args.numCombinations = e₂.args.numCombinations :=
  processType_count_thread_level_independent THREAD_LEVEL 0 (by decide) (by decide) 4 2522229
    (by decide) 25 25 (by decide) (by decide)

/-- C6 (the cap on the number of acids is respected): for every target `T` and
cap `M`, every record a run of `processType` from the all-zero record hands to
`printCounts` has `sum typeCounts ≤ M` and `numAcids ≤ M`, and every record
passed to a recursive call of `processType` (every invocation after the first)
has `numAcids ≤ M`. -/
theorem processType_respects_cap (L : Nat) (M T : Int) (fuel : Nat)
    (hfuel : NUM_AMINO_ACID_TYPES + (M + 1).toNat < fuel) :
    ∃ e, processType L M T fuel zeroArguments = some e ∧
      (∀ p ∈ e.printed, p.typeCounts.sum ≤ M ∧ p.numAcids ≤ M) ∧
      ∀ q ∈ e.invoked.tail, q.numAcids ≤ M := by
  obtain ⟨e, he, _, hp, _⟩ := processType_zero L M T fuel hfuel
  obtain ⟨e', he', _, _, _, ⟨rest, hinv, hrest, _⟩, _⟩ :=
    processType_traced L M T fuel zeroArguments (by decide)
      (by simpa [zeroArguments] using hfuel)
  rw [he] at he'
  obtain rfl : e = e' := Option.some.inj he'
  refine ⟨e, he, ?_, ?_⟩
  · intro p hpm
    have hmem : slotView p ∈ (searchTree M T NUM_AMINO_ACID_TYPES zeroArguments).1 := by
      rw [← hp]
      exact List.mem_map_of_mem _ hpm
    obtain ⟨hgood, _, hcap, _⟩ := searchTree_sound M T NUM_AMINO_ACID_TYPES zeroArguments
      zeroArguments_good rfl _ hmem
    have h1 : p.numAcids = p.typeCounts.sum := hgood.2.1
    have h2 : p.numAcids ≤ M := hcap
    omega
  · intro q hq
    rw [hinv, List.tail_cons] at hq
    exact (hrest q hq).1

/-- Witness of C6: the threaded search for 252.2229 Da with cap 4. -/
theorem processType_respects_cap_witness :
    ∃ e, processType THREAD_LEVEL 4 2522229 25 zeroArguments = some e ∧
      (∀ p ∈ e.printed, p.typeCounts.sum ≤ 4 ∧ p.numAcids ≤ 4) ∧
      ∀ q ∈ e.invoked.tail, q.numAcids ≤ 4 :=
  processType_respects_cap THREAD_LEVEL 4 2522229 25 (by decide)

theorem intOfDouble_of_range (x : Int) (hlo : -2147483648 ≤ x) (hhi : x ≤ 2147483647) :
    intOfDouble x = x := by
  simp only [intOfDouble]
  rw [if_pos ⟨hlo, hhi⟩]

/-- The derivation of the cap where the ceiling fits an `int`: for every input
mass with `ceil(mass / 75.0669)` in the range of `int`, `main` sets `maxAcids`
to the smaller of the ceiling and 20; when the ceiling exceeds 20 the cap is
exactly 20 and the line `Clipping Peptide Length at 20` is printed, and when it
does not the cap is the ceiling and the line printed is `Max Peptide Length:`
with the cap, which is not the clipping line. -/
theorem capFor_clips_in_range (inputMass : ℚ)
    (hlo : -2147483648 ≤ ⌈inputMass / (750669 / 10000)⌉)
    (hhi : ⌈inputMass / (750669 / 10000)⌉ ≤ 2147483647) :
    (capFor inputMass).1 = min ⌈inputMass / (750669 / 10000)⌉ MAX_PEPTIDE_SIZE ∧
      (⌈inputMass / (750669 / 10000)⌉ > 20 →
        capFor inputMass = (20, "Clipping Peptide Length at 20\n")) ∧
      (⌈inputMass / (750669 / 10000)⌉ ≤ 20 →
        (capFor inputMass).1 = ⌈inputMass / (750669 / 10000)⌉ ∧
        (capFor inputMass).2
          = "Max Peptide Length: " ++ toString ⌈inputMass / (750669 / 10000)⌉ ++ "\n" ∧
        (capFor inputMass).2 ≠ "Clipping Peptide Length at 20\n") := by
  have hfit := intOfDouble_of_range _ hlo hhi
  refine ⟨?_, ?_, ?_⟩
  · simp only [capFor, hfit, MAX_PEPTIDE_SIZE]
    split_ifs with h
    · exact (min_eq_right (le_of_lt h)).symm
    · exact (min_eq_left (not_lt.mp h)).symm
  · intro h
    simp only [capFor, hfit, MAX_PEPTIDE_SIZE]
    rw [if_pos h]
    decide
  · intro h
    simp only [capFor, hfit, MAX_PEPTIDE_SIZE]
    rw [if_neg (not_lt.mpr h)]
    refine ⟨rfl, rfl, ?_⟩
    intro hcon
    have := congrArg String.data hcon
    simp [String.data_append] at this

set_option maxRecDepth 100000 in
/-- C7, failing input: for the input mass 200000000000 Da the ceiling of the
quotient by 75.0669 is 2664290120, above 20 and above the largest `int`.
`main` stores the ceiling in the `int` variable `maxAcids` before the test
`maxAcids > MAX_PEPTIDE_SIZE`, so the test fails: the cap is not 20 and the
line printed is `Max Peptide Length: -2147483648`, not the clipping line. -/
theorem capFor_large_mass_unclipped :
    ⌈(200000000000 : ℚ) / (750669 / 10000)⌉ = 2664290120 ∧
    capFor 200000000000 = (-2147483648, "Max Peptide Length: -2147483648\n") := by
  have h : ⌈(200000000000 : ℚ) / (750669 / 10000)⌉ = 2664290120 := by
    rw [Int.ceil_eq_iff]
    norm_num
  refine ⟨h, ?_⟩
  simp only [capFor, h, MAX_PEPTIDE_SIZE]
  decide

theorem ready_of_drop (s : TYPE_ARGUMENTS) (hlen : s.typeCounts.length = NUM_AMINO_ACID_TYPES)
    (hle : s.typeIndex ≤ NUM_AMINO_ACID_TYPES) (hzero : ∀ x ∈ s.typeCounts.drop s.typeIndex, x = 0) :
    Ready s := by
  refine ⟨hlen, hle, ?_⟩
  intro i hi
  rw [List.getD_eq_getElem?_getD]
  by_cases h : i < s.typeCounts.length
  · rw [List.getElem?_eq_getElem h, Option.getD_some]
    apply hzero
    rw [List.mem_drop_iff_getElem]
    exact ⟨i - s.typeIndex, by omega, by congr 1; omega⟩
  · rw [List.getElem?_eq_none (by omega)]
    rfl

theorem threaded_counts (L : Nat) (M T : Int) (fuel : Nat) (s : TYPE_ARGUMENTS) (e : Effect)
    (h19 : s.typeIndex ≠ NUM_AMINO_ACID_TYPES) (hL : s.typeIndex < L)
    (he : processType L M T fuel s = some e) : e.args.typeCounts = s.typeCounts := by
  cases fuel with
  | zero => simp [processType] at he
  | succ fuel =>
    simp only [processType] at he
    rw [if_neg h19, if_pos hL] at he
    split at he
    · simp at he
    · rw [← Option.some.inj he]

/-- C8 (mutate then restore): for every record entering the sequential branch
of `processType` (thread level `≤ typeIndex ≤ 18`) whose counts from
`typeIndex` on are zero, the call returns and leaves `numAcids`, `typeIndex`,
every entry of `typeCounts` and `currentMass` as they were on entry; only
`numCombinations` may differ, and it does not shrink. -/
theorem processType_sequential_restores (L : Nat) (M T : Int) (s : TYPE_ARGUMENTS)
    (hlen : s.typeCounts.length = NUM_AMINO_ACID_TYPES) (hL : L ≤ s.typeIndex)
    (h18 : s.typeIndex ≤ 18) (hzero : ∀ x ∈ s.typeCounts.drop s.typeIndex, x = 0) (fuel : Nat)
    (hfuel : (NUM_AMINO_ACID_TYPES - s.typeIndex) + (M + 1 - s.numAcids).toNat < fuel) :
    ∃ e, processType L M T fuel s = some e ∧ e.args.numAcids = s.numAcids ∧
      e.args.typeIndex = s.typeIndex ∧ e.args.typeCounts = s.typeCounts ∧
      e.args.currentMass = s.currentMass ∧ s.numCombinations ≤ e.args.numCombinations := by
  have hready : Ready s := ready_of_drop s hlen (by simp only [NUM_AMINO_ACID_TYPES]; omega) hzero
  obtain ⟨e, he, ha, _, _⟩ := processType_char L M T fuel s hready hfuel
  refine ⟨e, he, ?_, ?_, ?_, ?_, ?_⟩ <;> rw [ha] <;> simp only [setCounter]
  have := searchTree_count_nonneg M T (NUM_AMINO_ACID_TYPES - s.typeIndex) s
  omega

/-- Witness of C8: a record with one glycine placed, entering type 17 of a
search for 500 Da with cap 2 and thread level 5. -/
theorem processType_sequential_restores_witness :
    ∃ e, processType THREAD_LEVEL 2 5000000 5
        ⟨1, 17, [1, 0, 0, 0, 0, 0, 0, 0, 0, 0, 0, 0, 0, 0, 0, 0, 0, 0, 0], 750669, 7⟩ = some e ∧
      e.args.numAcids = 1 ∧ e.args.typeIndex = 17 ∧
      e.args.typeCounts = [1, 0, 0, 0, 0, 0, 0, 0, 0, 0, 0, 0, 0, 0, 0, 0, 0, 0, 0] ∧
      e.args.currentMass = 750669 ∧ 7 ≤ e.args.numCombinations :=
  processType_sequential_restores THREAD_LEVEL 2 5000000
    ⟨1, 17, [1, 0, 0, 0, 0, 0, 0, 0, 0, 0, 0, 0, 0, 0, 0, 0, 0, 0, 0], 750669, 7⟩
    (by decide) (by decide) (by decide) (by decide) 5 (by decide)

/-- C9 (copy and spawn leaves the record of the caller alone): for every record
entering the threaded branch of `processType` (`typeIndex` below the thread
level), the call returns with `numAcids`, `typeIndex`, `typeCounts` and
`currentMass` of the caller unchanged, and every thread it creates (every
invocation one level down) is entered with a copy of the record of the caller
in which, for its count, `numAcids` is `numAcids + count`, `typeCounts[typeIndex]`
is `count`, `currentMass` is `currentMass + count * typeMasses[typeIndex]`,
`typeIndex` is `typeIndex + 1` and `numCombinations` is 1. -/
theorem processType_threaded_copies (L : Nat) (M T : Int) (s : TYPE_ARGUMENTS)
    (hlen : s.typeCounts.length = NUM_AMINO_ACID_TYPES) (hL : s.typeIndex < L)
    (h19 : s.typeIndex < NUM_AMINO_ACID_TYPES) (fuel : Nat)
    (hfuel : (NUM_AMINO_ACID_TYPES - s.typeIndex) + (M + 1 - s.numAcids).toNat < fuel) :
    ∃ e, processType L M T fuel s = some e ∧ e.args.numAcids = s.numAcids ∧
      e.args.typeIndex = s.typeIndex ∧ e.args.typeCounts = s.typeCounts ∧
      e.args.currentMass = s.currentMass ∧
      ∀ q ∈ e.invoked, q.typeIndex = s.typeIndex + 1 →
        ∃ count : Nat, s.numAcids + count ≤ M ∧ q.numAcids = s.numAcids + count ∧
          q.typeCounts = s.typeCounts.set s.typeIndex count ∧
          q.currentMass = s.currentMass + count * typeMasses.getD s.typeIndex 0 ∧
          q.numCombinations = 1 := by
  obtain ⟨e, he, ha, ht, hm, ⟨rest, hinv, _, hchild⟩, _⟩ :=
    processType_traced L M T fuel s (le_of_lt h19) hfuel
  refine ⟨e, he, ha, ht, threaded_counts L M T fuel s e (ne_of_lt h19) hL he, hm, ?_⟩
  intro q hq hqt
  rw [hinv] at hq
  rcases List.mem_cons.mp hq with rfl | hq
  · omega
  · obtain ⟨count, hc, rfl⟩ := hchild hL q hq hqt
    exact ⟨count, hc, rfl, rfl, rfl, rfl⟩

/-- Witness of C9: the all-zero record entering the threaded root of the search
for 252.2229 Da with cap 4 and thread level 5. -/
theorem processType_threaded_copies_witness :
    ∃ e, processType THREAD_LEVEL 4 2522229 25 zeroArguments = some e ∧
      e.args.numAcids = zeroArguments.numAcids ∧
      e.args.typeIndex = zeroArguments.typeIndex ∧
      e.args.typeCounts = zeroArguments.typeCounts ∧
      e.args.currentMass = zeroArguments.currentMass ∧
      ∀ q ∈ e.invoked, q.typeIndex = zeroArguments.typeIndex + 1 →
        ∃ count : Nat, zeroArguments.numAcids + count ≤ 4 ∧
          q.numAcids = zeroArguments.numAcids + count ∧
          q.typeCounts = zeroArguments.typeCounts.set zeroArguments.typeIndex count ∧
          q.currentMass
            = zeroArguments.currentMass + count * typeMasses.getD zeroArguments.typeIndex 0 ∧
          q.numCombinations = 1 :=
  processType_threaded_copies THREAD_LEVEL 4 2522229 zeroArguments (by decide) (by decide)
    (by decide) 25 (by decide)

theorem quantize_two_glycines : quantize (1501338 / 10000) = 1501338 := by
  have h : ((1501338 / 10000 : ℚ) * 10000) = ((1501338 : ℤ) : ℚ) := by norm_num
  rw [quantize, h, round_intCast]

theorem capFor_two_glycines : (capFor (1501338 / 10000)).1 = 2 := by
  have h : ⌈(1501338 / 10000 : ℚ) / (750669 / 10000)⌉ = 2 := by norm_num
  simp only [capFor, h, MAX_PEPTIDE_SIZE]
  decide

set_option maxRecDepth 100000 in
theorem searchTree_two_glycines :
    searchTree 2 1501338 NUM_AMINO_ACID_TYPES zeroArguments
      = ([threadSlot zeroArguments 2], 194) := by
  decide

set_option maxRecDepth 100000 in
theorem rowText_two_glycines (p : TYPE_ARGUMENTS) (hp : slotView p = threadSlot zeroArguments 2) :
    rowText p = "02,00,00,00,00,00,00,00,00,00,00,00,00,00,00,00,00,00,00,150.1338\n" := by
  have h : rowText p = rowText (slotView p) := rfl
  rw [h, hp]
  decide

/-- C10 (scenario, two residues of the lightest type): the input mass
150.1338 Da is quantized to 1501338 and gets the cap 2, and the threaded search
for it returns with exactly one match, the count vector with 2 in slot 0
(glycine) and 0 in the other 18 slots, of realized mass 1501338, written as the
row ending in `150.1338`; the match counter grows by exactly 1. -/
theorem scenario_two_glycines (fuel : Nat) (hfuel : 22 < fuel) :
    quantize (1501338 / 10000) = 1501338 ∧ (capFor (1501338 / 10000)).1 = 2 ∧
    ∃ e, processType THREAD_LEVEL 2 1501338 fuel zeroArguments = some e ∧
      e.printed.map (fun p => p.typeCounts)
        = [[2, 0, 0, 0, 0, 0, 0, 0, 0, 0, 0, 0, 0, 0, 0, 0, 0, 0, 0]] ∧
      e.printed.map (fun p => p.currentMass) = [1501338] ∧
      e.printed.map (fun p => fourDecimals p.currentMass) = ["150.1338"] ∧
      ∀ sink : Sink,
        (report e.printed sink).numMatches = sink.numMatches + 1 ∧
        (report e.printed sink).outputFp = sink.outputFp.map (fun text => text ++
          "02,00,00,00,00,00,00,00,00,00,00,00,00,00,00,00,00,00,00,150.1338\n") := by
  refine ⟨quantize_two_glycines, capFor_two_glycines, ?_⟩
  obtain ⟨e, he, _, hp, _⟩ := processType_zero THREAD_LEVEL 2 1501338 fuel
    (by simp only [NUM_AMINO_ACID_TYPES]; omega)
  rw [searchTree_two_glycines] at hp
  refine ⟨e, he, ?_⟩
  obtain ⟨p, hpe, hpv⟩ : ∃ p, e.printed = [p] ∧ slotView p = threadSlot zeroArguments 2 := by
    cases hpr : e.printed with
    | nil => rw [hpr] at hp; simp at hp
    | cons p rest =>
      rw [hpr] at hp
      simp only [List.map_cons, List.cons.injEq, List.map_eq_nil_iff] at hp
      exact ⟨p, by rw [hp.2], hp.1⟩
  have hc : p.typeCounts = (threadSlot zeroArguments 2).typeCounts := by rw [← hpv]; rfl
  have hm : p.currentMass = (threadSlot zeroArguments 2).currentMass := by rw [← hpv]; rfl
  rw [hpe]
  refine ⟨?_, ?_, ?_, ?_⟩
  · simp only [List.map_cons, List.map_nil, hc]
    decide
  · simp only [List.map_cons, List.map_nil, hm]
    decide
  · simp only [List.map_cons, List.map_nil, hm]
    decide
  · intro sink
    refine ⟨rfl, ?_⟩
    show (printCounts p sink).outputFp = _
    simp only [printCounts, rowText_two_glycines p hpv]

/-- Witness of C10: a budget of 23 steps is enough. -/
theorem scenario_two_glycines_witness :
    quantize (1501338 / 10000) = 1501338 ∧ (capFor (1501338 / 10000)).1 = 2 ∧
    ∃ e, processType THREAD_LEVEL 2 1501338 23 zeroArguments = some e ∧
      e.printed.map (fun p => p.typeCounts)
        = [[2, 0, 0, 0, 0, 0, 0, 0, 0, 0, 0, 0, 0, 0, 0, 0, 0, 0, 0]] ∧
      e.printed.map (fun p => p.currentMass) = [1501338] ∧
      e.printed.map (fun p => fourDecimals p.currentMass) = ["150.1338"] ∧
      ∀ sink : Sink,
        (report e.printed sink).numMatches = sink.numMatches + 1 ∧
        (report e.printed sink).outputFp = sink.outputFp.map (fun text => text ++
          "02,00,00,00,00,00,00,00,00,00,00,00,00,00,00,00,00,00,00,150.1338\n") :=
  scenario_two_glycines 23 (by decide)

theorem dot_lower (lo : Int) : ∀ (c w : List Int), (∀ m ∈ w, lo ≤ m) → (∀ x ∈ c, 0 ≤ x) →
    c.length ≤ w.length → lo * c.sum ≤ (List.zipWith (fun n m => n * m) c w).sum := by
  intro c
  induction c with
  | nil => intro w _ _ _; simp
  | cons x c ih =>
    intro w hw hc hlen
    cases w with
    | nil => simp at hlen
    | cons m w =>
      simp only [List.zipWith_cons_cons, List.sum_cons]
      have h1 := ih w (fun m' hm' => hw m' (by simp [hm'])) (fun y hy => hc y (by simp [hy]))
        (by simpa using hlen)
      have hx : 0 ≤ x := hc x (by simp)
      have hm : lo ≤ m := hw m (by simp)
      have h2 : lo * x ≤ x * m := by
        rw [mul_comm lo x]
        exact mul_le_mul_of_nonneg_left hm hx
      rw [mul_add]
      omega

theorem dot_upper (hi : Int) (hhi : 0 ≤ hi) : ∀ (c w : List Int), (∀ m ∈ w, m ≤ hi) →
    (∀ x ∈ c, 0 ≤ x) → (List.zipWith (fun n m => n * m) c w).sum ≤ hi * c.sum := by
  intro c
  induction c with
  | nil => intro w _ _; simp
  | cons x c ih =>
    intro w hw hc
    have hx : 0 ≤ x := hc x (by simp)
    have hsum : 0 ≤ c.sum := List.sum_nonneg (fun y hy => hc y (by simp [hy]))
    cases w with
    | nil =>
      simp only [List.zipWith_nil_right, List.sum_nil, List.sum_cons]
      exact mul_nonneg hhi (by omega)
    | cons m w =>
      simp only [List.zipWith_cons_cons, List.sum_cons]
      have h1 := ih w (fun m' hm' => hw m' (by simp [hm'])) (fun y hy => hc y (by simp [hy]))
      have hm : m ≤ hi := hw m (by simp)
      have h2 : x * m ≤ hi * x := by
        rw [mul_comm hi x]
        exact mul_le_mul_of_nonneg_left hm hx
      rw [mul_add]
      omega

theorem massOf_bounds (c : List Int) (hlen : c.length = NUM_AMINO_ACID_TYPES)
    (hnn : ∀ x ∈ c, 0 ≤ x) : 750669 * c.sum ≤ massOf c ∧ massOf c ≤ 2042262 * c.sum :=
  ⟨dot_lower 750669 c typeMasses (by decide) hnn (by rw [hlen]; decide),
   dot_upper 2042262 (by decide) c typeMasses (by decide) hnn⟩

theorem searchTree_nonneg (M T : Int) : ∀ (d : Nat) (s : TYPE_ARGUMENTS),
    (∀ x ∈ s.typeCounts, 0 ≤ x) → ∀ p ∈ (searchTree M T d s).1, ∀ x ∈ p.typeCounts, 0 ≤ x := by
  intro d
  induction d with
  | zero => intro s _ p hp; simp [searchTree] at hp
  | succ d ih =>
    intro s hs p hp
    have hslot : ∀ k : Nat, ∀ x ∈ (threadSlot s (k : Int)).typeCounts, 0 ≤ x := by
      intro k x hx
      simp only [threadSlot] at hx
      rcases List.mem_or_eq_of_mem_set hx with h | h
      · exact hs x h
      · rw [h]; exact Int.ofNat_nonneg k
    simp only [searchTree] at hp
    obtain ⟨k, _, hp | hp⟩ := searchLoop_mem _ T s _ p hp
    · rw [hp.1]; exact hslot k
    · exact ih _ (hslot k) p hp.1

theorem zeroArguments_nonneg : ∀ x ∈ zeroArguments.typeCounts, (0 : Int) ≤ x := by
  intro x hx
  simp only [zeroArguments, List.mem_replicate] at hx
  omega

theorem report_nil (sink : Sink) : report [] sink = sink := rfl

/-- C11, counterexample: the quantized target 0 is smaller than the mass of the
lightest residue, and the threaded search for it with cap 0 (the target and the
cap `main` derives from the input mass 0) hands one row, the all-zero vector,
to `printCounts` and raises a fresh match counter to 1. -/
theorem zero_target_emits_row :
    quantize 0 = 0 ∧ (capFor 0).1 = 0 ∧ (0 : Int) < 750669 ∧
    ∃ e, processType THREAD_LEVEL 0 0 21 zeroArguments = some e ∧
      e.printed.map (fun p => p.typeCounts) = [List.replicate 19 0] ∧
      (report e.printed ⟨0, some ""⟩).numMatches = 1 := by
  refine ⟨by simp [quantize], ?_, by decide, ?_⟩
  · have h : ⌈(0 : ℚ) / (750669 / 10000)⌉ = 0 := by norm_num
    simp only [capFor, h, MAX_PEPTIDE_SIZE]
    decide
  · exact ⟨⟨zeroArguments, [threadSlot zeroArguments 0], [zeroArguments]⟩,
      by decide, by decide, by decide⟩

/-- C11, amended (target below the lightest residue): for every quantized
target below 750669 other than 0 and every cap, a run of `processType` from the
all-zero record returns, hands no row to `printCounts` and leaves the sink, the
match counter and the file, as it was. -/
theorem processType_below_lightest (L : Nat) (M T : Int) (hT : T < 750669) (h0 : T ≠ 0)
    (fuel : Nat) (hfuel : NUM_AMINO_ACID_TYPES + (M + 1).toNat < fuel) :
    ∃ e, processType L M T fuel zeroArguments = some e ∧ e.printed = [] ∧
      ∀ sink : Sink, report e.printed sink = sink := by
  obtain ⟨e, he, _, hp, _⟩ := processType_zero L M T fuel hfuel
  have hempty : (searchTree M T NUM_AMINO_ACID_TYPES zeroArguments).1 = [] := by
    rw [List.eq_nil_iff_forall_not_mem]
    intro p hpm
    obtain ⟨hgood, hmass, _, _⟩ := searchTree_sound M T NUM_AMINO_ACID_TYPES zeroArguments
      zeroArguments_good rfl p hpm
    have hnn := searchTree_nonneg M T NUM_AMINO_ACID_TYPES zeroArguments zeroArguments_nonneg p hpm
    obtain ⟨hlo, hhi⟩ := massOf_bounds p.typeCounts hgood.1.1 hnn
    have hsum : 0 ≤ p.typeCounts.sum := List.sum_nonneg hnn
    have hm : massOf p.typeCounts = T := by rw [← hgood.2.2, hmass]
    omega
  rw [hempty, List.map_eq_nil_iff] at hp
  exact ⟨e, he, hp, fun sink => by rw [hp]; rfl⟩

/-- Witness of C11: the threaded search for 50 Da with cap 1. -/
theorem processType_below_lightest_witness :
    ∃ e, processType THREAD_LEVEL 1 500000 22 zeroArguments = some e ∧ e.printed = [] ∧
      ∀ sink : Sink, report e.printed sink = sink :=
  processType_below_lightest THREAD_LEVEL 1 500000 (by decide) (by decide) 22 (by decide)

set_option maxRecDepth 1000000 in
theorem searchTree_coinciding :
    (searchTree 4 2522229 NUM_AMINO_ACID_TYPES zeroArguments).1.map (fun p => p.typeCounts)
      = [[0, 0, 0, 0, 0, 1, 0, 0, 0, 1, 0, 0, 0, 0, 0, 0, 0, 0, 0],
         [0, 0, 1, 0, 0, 0, 0, 0, 0, 0, 0, 0, 1, 0, 0, 0, 0, 0, 0]] := by
  decide

theorem capFor_coinciding : (capFor (2522229 / 10000)).1 = 4 := by
  have h : ⌈(2522229 / 10000 : ℚ) / (750669 / 10000)⌉ = 4 := by
    rw [Int.ceil_eq_iff]
    norm_num
  simp only [capFor, h, MAX_PEPTIDE_SIZE]
  decide

theorem quantize_coinciding : quantize (2522229 / 10000) = 2522229 := by
  have h : ((2522229 / 10000 : ℚ) * 10000) = ((2522229 : ℤ) : ℚ) := by norm_num
  rw [quantize, h, round_intCast]

/-- C12 (scenario, coinciding sums): the quantized target 2522229 (252.2229 Da,
cap 4) is the sum of the masses of serine and glutamate and also of threonine
and aspartate; the threaded search for it returns and the rows it hands to
`printCounts` are, in some order, the two count vectors of these compositions
and no other. -/
theorem scenario_coinciding_sums (fuel : Nat) (hfuel : 24 < fuel) :
    (aminoAcidData.map (fun a => a.name)).getD 2 "" = "Serine" ∧
    (aminoAcidData.map (fun a => a.name)).getD 12 "" = "Glutamate" ∧
    (aminoAcidData.map (fun a => a.name)).getD 5 "" = "Threonine" ∧
    (aminoAcidData.map (fun a => a.name)).getD 9 "" = "Aspartate" ∧
    typeMasses.getD 2 0 = 1050930 ∧ typeMasses.getD 12 0 = 1471299 ∧
    typeMasses.getD 5 0 = 1191197 ∧ typeMasses.getD 9 0 = 1331032 ∧
    (1050930 : Int) + 1471299 = 2522229 ∧ (1191197 : Int) + 1331032 = 2522229 ∧
    quantize (2522229 / 10000) = 2522229 ∧ (capFor (2522229 / 10000)).1 = 4 ∧
    ∃ e, processType THREAD_LEVEL 4 2522229 fuel zeroArguments = some e ∧
      (e.printed.map (fun p => p.typeCounts)).Perm
        [[0, 0, 1, 0, 0, 0, 0, 0, 0, 0, 0, 0, 1, 0, 0, 0, 0, 0, 0],
         [0, 0, 0, 0, 0, 1, 0, 0, 0, 1, 0, 0, 0, 0, 0, 0, 0, 0, 0]] := by
  refine ⟨by decide, by decide, by decide, by decide, by decide, by decide, by decide,
    by decide, by decide, by decide, quantize_coinciding, capFor_coinciding, ?_⟩
  obtain ⟨e, he, _, hp, _⟩ := processType_zero THREAD_LEVEL 4 2522229 fuel
    (by simp only [NUM_AMINO_ACID_TYPES]; omega)
  refine ⟨e, he, ?_⟩
  rw [printed_counts, hp, searchTree_coinciding]
  exact List.Perm.swap _ _ _

/-- Witness of C12: a budget of 25 steps is enough. -/
theorem scenario_coinciding_sums_witness :
    (aminoAcidData.map (fun a => a.name)).getD 2 "" = "Serine" ∧
    (aminoAcidData.map (fun a => a.name)).getD 12 "" = "Glutamate" ∧
    (aminoAcidData.map (fun a => a.name)).getD 5 "" = "Threonine" ∧
    (aminoAcidData.map (fun a => a.name)).getD 9 "" = "Aspartate" ∧
    typeMasses.getD 2 0 = 1050930 ∧ typeMasses.getD 12 0 = 1471299 ∧
    typeMasses.getD 5 0 = 1191197 ∧ typeMasses.getD 9 0 = 1331032 ∧
    (1050930 : Int) + 1471299 = 2522229 ∧ (1191197 : Int) + 1331032 = 2522229 ∧
    quantize (2522229 / 10000) = 2522229 ∧ (capFor (2522229 / 10000)).1 = 4 ∧
    ∃ e, processType THREAD_LEVEL 4 2522229 25 zeroArguments = some e ∧
      (e.printed.map (fun p => p.typeCounts)).Perm
        [[0, 0, 1, 0, 0, 0, 0, 0, 0, 0, 0, 0, 1, 0, 0, 0, 0, 0, 0],
         [0, 0, 0, 0, 0, 1, 0, 0, 0, 1, 0, 0, 0, 0, 0, 0, 0, 0, 0]] :=
  scenario_coinciding_sums 25 (by decide)

theorem round_quantum (x : ℚ) (n : ℤ) (h : x * 10000 = (n : ℚ)) : round (x * 10000) = n := by
  rw [h, round_intCast]

/-- C14 (mass table): the table has exactly 19 entries, `typeMasses[i]` is
`round(mass_i * 10000)` for each row of `aminoAcidData` (so `typeMasses[0]` is
750669 and `typeMasses[18]` is 2042262), every quantized mass is positive, and
the sequence is strictly ascending, so that index 0, whose mass 75.0669 divides
the input mass in the derivation of the cap, is the lightest residue. -/
theorem mass_table :
    aminoAcidData.length = NUM_AMINO_ACID_TYPES ∧ typeMasses.length = NUM_AMINO_ACID_TYPES ∧
    typeMasses = aminoAcidData.map (fun a => round (a.mass * 10000)) ∧
    typeMasses.getD 0 0 = 750669 ∧ typeMasses.getD 18 0 = 2042262 ∧
    (∀ m ∈ typeMasses, 0 < m) ∧
    typeMasses.Pairwise (fun a b => a < b) ∧
    (∀ i, 0 < i → i < NUM_AMINO_ACID_TYPES → typeMasses.getD 0 0 < typeMasses.getD i 0) ∧
    (aminoAcidData.map (fun a => a.mass)).getD 0 0 = 750669 / 10000 := by
  refine ⟨by decide, by decide, ?_, by decide, by decide, by decide, by decide, ?_, ?_⟩
  · simp only [aminoAcidData, typeMasses, List.map_cons, List.map_nil]
    rw [round_quantum 75.0669 750669 (by norm_num), round_quantum 89.0935 890935 (by norm_num),
      round_quantum 105.0930 1050930 (by norm_num), round_quantum 115.1310 1151310 (by norm_num),
      round_quantum 117.1469 1171469 (by norm_num), round_quantum 119.1197 1191197 (by norm_num),
      round_quantum 121.1590 1211590 (by norm_num), round_quantum 131.1736 1311736 (by norm_num),
      round_quantum 132.1184 1321184 (by norm_num), round_quantum 133.1032 1331032 (by norm_num),
      round_quantum 146.1451 1461451 (by norm_num), round_quantum 146.1882 1461882 (by norm_num),
      round_quantum 147.1299 1471299 (by norm_num), round_quantum 149.2124 1492124 (by norm_num),
      round_quantum 155.1552 1551552 (by norm_num), round_quantum 165.1900 1651900 (by norm_num),
      round_quantum 174.2017 1742017 (by norm_num), round_quantum 181.1894 1811894 (by norm_num),
      round_quantum 204.2262 2042262 (by norm_num)]
  · intro i h0 h19
    simp only [NUM_AMINO_ACID_TYPES] at h19
    interval_cases i <;> decide
  · simp only [aminoAcidData, List.map_cons, List.getD_cons_zero]
    norm_num

theorem capFor_two_glycines_line : capFor (1501338 / 10000) = (2, "Max Peptide Length: 2\n") := by
  have h : ⌈(1501338 / 10000 : ℚ) / (750669 / 10000)⌉ = 2 := by norm_num
  simp only [capFor, h, MAX_PEPTIDE_SIZE]
  decide

theorem searchPass_two_glycines (fuel : Nat) (hfuel : 22 < fuel) (idName : String) (itry : Nat)
    (numMatches : Int) :
    searchPass fuel idName itry (1501338 / 10000) numMatches
      = some ⟨1501338, 2, "Max Peptide Length: 2\n",
          "Compositions-" ++ idName ++ "-" ++ toString itry ++ ".csv",
          "02,00,00,00,00,00,00,00,00,00,00,00,00,00,00,00,00,00,00,150.1338\n",
          numMatches + 1, 194⟩ := by
  obtain ⟨e, he, ha, hp, _⟩ := processType_zero THREAD_LEVEL 2 1501338 fuel
    (by simp only [NUM_AMINO_ACID_TYPES]; omega)
  rw [searchTree_two_glycines] at hp ha
  obtain ⟨p, hpe, hpv⟩ : ∃ p, e.printed = [p] ∧ slotView p = threadSlot zeroArguments 2 := by
    cases hpr : e.printed with
    | nil => rw [hpr] at hp; simp at hp
    | cons p rest =>
      rw [hpr] at hp
      simp only [List.map_cons, List.cons.injEq, List.map_eq_nil_iff] at hp
      exact ⟨p, by rw [hp.2], hp.1⟩
  simp only [searchPass, quantize_two_glycines, capFor_two_glycines_line, he, hpe, report,
    List.foldl_cons, List.foldl_nil, printCounts, rowText_two_glycines p hpv, ha, setCounter,
    Option.map_some', Option.getD_some]
  rfl

/-- C13, the code at the failing input: for the command line
`computePeptideComposition run1 150.1338 150.1338` the program makes two passes
and exits with status 0; the file of the second target holds one row, the
match counter after the first pass is 1 and after the second pass it is 2. -/
theorem numMatches_accumulates :
    ∃ first second : Pass,
      main 64 (fun _ => some (1501338 / 10000)) 0
          ["computePeptideComposition", "run1", "150.1338", "150.1338"]
        = Outcome.exited 0 [first, second] ∧
      first.numMatches = 1 ∧
      second.fileText = "02,00,00,00,00,00,00,00,00,00,00,00,00,00,00,00,00,00,00,150.1338\n" ∧
      second.numMatches = 2 := by
  refine ⟨⟨1501338, 2, "Max Peptide Length: 2\n", "Compositions-run1-0.csv",
      "02,00,00,00,00,00,00,00,00,00,00,00,00,00,00,00,00,00,00,150.1338\n", 1, 194⟩,
    ⟨1501338, 2, "Max Peptide Length: 2\n", "Compositions-run1-1.csv",
      "02,00,00,00,00,00,00,00,00,00,00,00,00,00,00,00,00,00,00,150.1338\n", 2, 194⟩,
    ?_, rfl, rfl, rfl⟩
  simp only [main, perTarget, List.length_cons, List.length_nil, List.tail_cons, List.headD_cons,
    Option.getD_some, searchPass_two_glycines 64 (by decide)]
  decide

theorem capFor_le (inputMass : ℚ) : (capFor inputMass).1 ≤ MAX_PEPTIDE_SIZE := by
  simp only [capFor]
  split_ifs with h
  · exact le_refl _
  · exact not_lt.mp h

theorem searchPass_some (fuel : Nat) (hfuel : 40 < fuel) (idName : String) (itry : Nat)
    (inputMass : ℚ) (numMatches : Int) :
    ∃ pass, searchPass fuel idName itry inputMass numMatches = some pass ∧
      pass.targetMass = quantize inputMass := by
  have hcap := capFor_le inputMass
  simp only [MAX_PEPTIDE_SIZE] at hcap
  obtain ⟨e, he, _⟩ := processType_zero THREAD_LEVEL (capFor inputMass).1 (quantize inputMass) fuel
    (by simp only [NUM_AMINO_ACID_TYPES]; omega)
  refine ⟨⟨quantize inputMass, (capFor inputMass).1, (capFor inputMass).2,
      "Compositions-" ++ idName ++ "-" ++ toString itry ++ ".csv",
      (report e.printed ⟨numMatches, some ""⟩).outputFp.getD "",
      (report e.printed ⟨numMatches, some ""⟩).numMatches, e.args.numCombinations⟩, ?_, rfl⟩
  simp only [searchPass, he]

theorem perTarget_replicate (fuel : Nat) (hfuel : 40 < fuel) (sscanf : String → Option ℚ)
    (idName arg : String) : ∀ (n itry : Nat) (inputMass : ℚ) (numMatches : Int),
    ∃ passes, perTarget fuel sscanf idName (List.replicate n arg) itry inputMass numMatches
      = some passes ∧ passes.length = n := by
  intro n
  induction n with
  | zero => intro _ _ _; exact ⟨[], rfl, rfl⟩
  | succ n ih =>
    intro itry inputMass numMatches
    obtain ⟨pass, hpass, _⟩ := searchPass_some fuel hfuel idName itry
      ((sscanf arg).getD inputMass) numMatches
    obtain ⟨passes, hpasses, hlen⟩ := ih (itry + 1) ((sscanf arg).getD inputMass) pass.numMatches
    exact ⟨pass :: passes, by simp only [List.replicate_succ, perTarget, hpass, hpasses],
      by simp [hlen]⟩

/-- C17, the code at failing inputs: with a run identifier and no target mass
`main` exits with status 0 without a search (the usage test after the program
name can never fire); with a target mass that cannot be read it searches for
the value `inputMass` held before and exits with status 0; with nine target
masses it makes nine passes and exits with status 0. -/
theorem main_accepts_malformed :
    (∀ (fuel : Nat) (sscanf : String → Option ℚ) (inputMass : ℚ),
      main fuel sscanf inputMass ["computePeptideComposition", "run1"] = Outcome.exited 0 []) ∧
    (∀ inputMass : ℚ, ∃ pass,
      main 64 (fun _ => none) inputMass ["computePeptideComposition", "run1", "abc"]
        = Outcome.exited 0 [pass] ∧ pass.targetMass = quantize inputMass) ∧
    (∃ passes,
      main 64 (fun _ => some (1501338 / 10000)) 0
          ("computePeptideComposition" :: "run1" :: List.replicate 9 "150.1338")
        = Outcome.exited 0 passes ∧ passes.length = 9) := by
  refine ⟨fun _ _ _ => rfl, ?_, ?_⟩
  · intro inputMass
    obtain ⟨pass, hpass, htarget⟩ := searchPass_some 64 (by decide) "run1" 0 inputMass 0
    refine ⟨pass, ?_, htarget⟩
    simp only [main, perTarget, List.length_cons, List.length_nil, List.tail_cons,
      List.headD_cons, Option.getD_none, hpass]
    rw [if_pos (by decide), if_neg (by decide)]
  · obtain ⟨passes, hpasses, hlen⟩ := perTarget_replicate 64 (by decide)
      (fun _ => some (1501338 / 10000)) "run1" "150.1338" 9 0 0 0
    refine ⟨passes, ?_, hlen⟩
    simp only [main, List.length_cons, List.length_replicate, List.tail_cons, List.headD_cons,
      hpasses]
    rw [if_pos (by decide), if_neg (by decide)]

theorem reference_loop_char (recurse : Int → Int → List Int → Option Reference.Effect)
    (M T : Int) (s : TYPE_ARGUMENTS) (hs : Ready s)
    (sub : TYPE_ARGUMENTS → List TYPE_ARGUMENTS × Int)
    (hrec : ∀ k : Nat, ∃ e, recurse (M - s.numAcids - k)
        (s.currentMass + k * typeMasses.getD s.typeIndex 0) (s.typeCounts.set s.typeIndex k)
          = some e ∧
        e.typeCounts = s.typeCounts.set s.typeIndex k ∧
        e.printed = (sub (threadSlot s (k : Int))).1.map (fun p => p.typeCounts)) :
    ∀ (ks : List Nat) (typeCounts : List Int),
      (∃ x, typeCounts = s.typeCounts.set s.typeIndex x) →
      ∃ r, Reference.loop recurse (M - s.numAcids) s.typeIndex T s.currentMass ks typeCounts
          = some r ∧
        r.typeCounts = s.typeCounts ∧
        r.printed = (searchLoop sub T s ks).1.map (fun p => p.typeCounts) := by
  intro ks
  induction ks with
  | nil =>
    rintro typeCounts ⟨x, rfl⟩
    exact ⟨_, rfl, by simp only [List.set_set, ready_set_zero hs], by simp [searchLoop]⟩
  | cons k more ih =>
    rintro typeCounts ⟨x, rfl⟩
    have hmass : (threadSlot s (k : Int)).currentMass
        = s.currentMass + (k : Int) * typeMasses.getD s.typeIndex 0 := rfl
    simp only [Reference.loop, searchLoop, List.set_set, hmass]
    by_cases h1 : s.currentMass + (k : Int) * typeMasses.getD s.typeIndex 0 > T + TOLERANCE
    · rw [if_pos h1, if_pos h1]
      exact ⟨_, rfl, by simp only [ready_set_zero hs], by simp⟩
    · rw [if_neg h1, if_neg h1]
      by_cases h2 : s.currentMass + (k : Int) * typeMasses.getD s.typeIndex 0 ≥ T - TOLERANCE
      · rw [if_pos h2, if_pos h2]
        exact ⟨_, rfl, by simp only [ready_set_zero hs], by simp [threadSlot]⟩
      · rw [if_neg h2, if_neg h2]
        obtain ⟨e, he, hec, hep⟩ := hrec k
        obtain ⟨r, hr, hrc, hrp⟩ := ih e.typeCounts ⟨k, hec⟩
        rw [he]
        simp only [hr]
        exact ⟨_, rfl, hrc, by simp only [List.map_append, hep, hrp]⟩

/-- With enough budget the single-threaded `processType`, entered with the
acids left, the type index, the mass and the counts of a ready record, returns
with the array of counts as it was and prints the count vectors of the rows of
the search tree below the record. -/
theorem reference_char (M T : Int) : ∀ (fuel : Nat) (s : TYPE_ARGUMENTS), Ready s →
    NUM_AMINO_ACID_TYPES - s.typeIndex < fuel →
    ∃ r, Reference.processType fuel (M - s.numAcids) s.typeIndex T s.currentMass s.typeCounts
        = some r ∧
      r.typeCounts = s.typeCounts ∧
      r.printed = (searchTree M T (NUM_AMINO_ACID_TYPES - s.typeIndex) s).1.map
        (fun p => p.typeCounts) := by
  intro fuel
  induction fuel with
  | zero => intro s _ h; omega
  | succ fuel ih =>
    intro s hs hfuel
    simp only [Reference.processType]
    by_cases h19 : s.typeIndex = NUM_AMINO_ACID_TYPES
    · rw [if_pos h19]
      have h0 : NUM_AMINO_ACID_TYPES - s.typeIndex = 0 := by omega
      rw [h0]
      exact ⟨_, rfl, rfl, by simp [searchTree]⟩
    · rw [if_neg h19]
      have ht : s.typeIndex < NUM_AMINO_ACID_TYPES := lt_of_le_of_ne hs.2.1 h19
      obtain ⟨d, hd⟩ : ∃ d, NUM_AMINO_ACID_TYPES - s.typeIndex = d + 1 :=
        ⟨NUM_AMINO_ACID_TYPES - s.typeIndex - 1, by omega⟩
      have hd' : NUM_AMINO_ACID_TYPES - (s.typeIndex + 1) = d := by omega
      rw [hd]
      simp only [searchTree]
      apply reference_loop_char _ M T s hs (searchTree M T d)
      · intro k
        obtain ⟨r, hr, hrc, hrp⟩ := ih (threadSlot s (k : Int)) (ready_child hs ht k 1)
          (by simp only [threadSlot]; omega)
        have e1 : M - (threadSlot s (k : Int)).numAcids = M - s.numAcids - k := by
          simp only [threadSlot]; ring
        have e2 : (threadSlot s (k : Int)).typeIndex = s.typeIndex + 1 := rfl
        rw [e1, e2] at hr
        rw [e2, hd'] at hrp
        exact ⟨r, hr, hrc, hrp⟩
      · exact ⟨0, (ready_set_zero hs).symm⟩

/-- C18 (agreement with the reference program): for every quantized target `T`
and every cap `M` with `0 ≤ M ≤ 20`, the single-threaded reference
`processType(M, 0, T, 0, zeros)` and the threaded `processType` from the
all-zero record with `maxAcids = M` and `targetMass = T` both return, and a
count vector is emitted by the one exactly when it is emitted by the other. -/
theorem reference_agrees (L : Nat) (M T : Int) (hM0 : 0 ≤ M) (hM : M ≤ MAX_PEPTIDE_SIZE)
    (fuel fuel' : Nat) (hfuel : NUM_AMINO_ACID_TYPES < fuel)
    (hfuel' : NUM_AMINO_ACID_TYPES + (M + 1).toNat < fuel') :
    ∃ r e, Reference.processType fuel M 0 T 0 (List.replicate NUM_AMINO_ACID_TYPES 0) = some r ∧
      processType L M T fuel' zeroArguments = some e ∧
      ∀ c : List Int, c ∈ r.printed ↔ c ∈ e.printed.map (fun p => p.typeCounts) := by
  obtain ⟨e, he, _, hp, _⟩ := processType_zero L M T fuel' hfuel'
  obtain ⟨r, hr, _, hrp⟩ := reference_char M T fuel zeroArguments zeroArguments_good.1
    (by simpa [zeroArguments] using hfuel)
  have e1 : M - zeroArguments.numAcids = M := by simp [zeroArguments]
  rw [e1] at hr
  refine ⟨r, e, hr, he, ?_⟩
  intro c
  rw [hrp, printed_counts e.printed, hp]
  exact Iff.rfl

/-- Witness of C18: the two programs on 252.2229 Da with cap 4. -/
theorem reference_agrees_witness :
    ∃ r e, Reference.processType 20 4 0 2522229 0 (List.replicate NUM_AMINO_ACID_TYPES 0)
        = some r ∧
      processType THREAD_LEVEL 4 2522229 25 zeroArguments = some e ∧
      ∀ c : List Int, c ∈ r.printed ↔ c ∈ e.printed.map (fun p => p.typeCounts) :=
  reference_agrees THREAD_LEVEL 4 2522229 (by decide) (by decide) 20 25 (by decide) (by decide)

set_option maxRecDepth 1000000 in
theorem reference_two_glycines :
    Reference.processType 64 16 0 1501338 0 (List.replicate NUM_AMINO_ACID_TYPES 0)
      = some ⟨List.replicate NUM_AMINO_ACID_TYPES 0,
          [[2, 0, 0, 0, 0, 0, 0, 0, 0, 0, 0, 0, 0, 0, 0, 0, 0, 0, 0]], 374⟩ := by
  decide

/-- C19, the code at the failing input: for the command line
`computePeptideComposition 150.1338 1` the value 1 is read for `maxAminoAcids`,
yet `findPeptides` is run with the cap 16 and reports the composition of two
glycines, which has more than one residue. -/
theorem findPeptides_ignores_cap :
    Reference.main 64 (fun _ => some (1501338 / 10000)) (fun _ => some 1)
        ["computePeptideComposition", "150.1338", "1"]
      = Reference.Outcome.exited 0 1
          ⟨List.replicate NUM_AMINO_ACID_TYPES 0,
            [[2, 0, 0, 0, 0, 0, 0, 0, 0, 0, 0, 0, 0, 0, 0, 0, 0, 0, 0]], 374⟩ ∧
    ([2, 0, 0, 0, 0, 0, 0, 0, 0, 0, 0, 0, 0, 0, 0, 0, 0, 0, 0] : List Int).sum > 1 := by
  refine ⟨?_, by decide⟩
  have h : round (10000 * (1501338 / 10000 : ℚ)) = 1501338 := by
    have h' : (10000 * (1501338 / 10000 : ℚ)) = ((1501338 : ℤ) : ℚ) := by norm_num
    rw [h', round_intCast]
  simp only [Reference.main, List.length_cons, List.length_nil, Reference.findPeptides, h,
    reference_two_glycines]
  decide

theorem good_setCounter {s : TYPE_ARGUMENTS} (hs : Good s) (n : Int) : Good (setCounter s n) := hs

theorem slotView_slot (s : TYPE_ARGUMENTS) (k n : Int) :
    slotView (setCounter (threadSlot s k) n) = threadSlot s k := rfl

theorem seqLoop_linked (recurse : TYPE_ARGUMENTS → Option Effect) (M T : Int)
    (s : TYPE_ARGUMENTS) (hs : Good s) (ht : s.typeIndex < NUM_AMINO_ACID_TYPES)
    (hrec : ∀ (k : Nat) (n : Int), s.numAcids + k ≤ M →
      ∃ e, recurse (setCounter (threadSlot s (k : Int)) n) = some e ∧
        (∃ n', e.args = setCounter (threadSlot s (k : Int)) n') ∧
        Linked (setCounter (threadSlot s (k : Int)) n) e.invoked) :
    ∀ (len k : Nat) (n : Int) (lf : Nat), k + len = (M - s.numAcids + 1).toNat → len < lf →
      ∃ r, seqLoop recurse M T s.typeIndex lf (setCounter (threadSlot s (k : Int)) n) (k : Int)
          = some r ∧
        (∃ (K : Nat) (n' : Int), r.loopCount = (K : Int) ∧
          r.args = setCounter (threadSlot s (K : Int)) n') ∧
        ∀ q ∈ r.invoked, Good q ∧
          ∃ p ∈ s :: r.invoked, ∃ count : Nat, slotView q = threadSlot p (count : Int) := by
  have hts : s.typeIndex < s.typeCounts.length := by rw [hs.1.1]; exact ht
  intro len
  induction len with
  | zero =>
    intro k n lf hk hlf
    obtain ⟨lf, rfl⟩ : ∃ m, lf = m + 1 := ⟨lf - 1, by omega⟩
    have hg : ¬ ((setCounter (threadSlot s (k : Int)) n).numAcids ≤ M) := by
      simp only [threadSlot, setCounter]; omega
    exact ⟨_, by simp only [seqLoop]; rw [if_neg hg], ⟨k, n, rfl, rfl⟩, by simp⟩
  | succ len ih =>
    intro k n lf hk hlf
    obtain ⟨lf, rfl⟩ : ∃ m, lf = m + 1 := ⟨lf - 1, by omega⟩
    have hg : (setCounter (threadSlot s (k : Int)) n).numAcids ≤ M := by
      simp only [threadSlot, setCounter]; omega
    simp only [seqLoop]
    rw [if_pos hg]
    split_ifs with h1 h2
    · exact ⟨_, rfl, ⟨k, n, rfl, rfl⟩, by simp⟩
    · exact ⟨_, rfl, ⟨k, n, rfl, rfl⟩, by simp⟩
    · obtain ⟨e, he, ⟨n', ha⟩, rest, hinv, hgood, hlink⟩ :=
        hrec k n (by simpa [threadSlot, setCounter] using hg)
      obtain ⟨r, hr, hK, hri⟩ := ih (k + 1) (n' + 1) lf (by omega) (by omega)
      rw [Nat.cast_succ] at hr
      rw [he]
      simp only [ha, addOne_slot s hts k, hr]
      refine ⟨_, rfl, hK, ?_⟩
      intro q hq
      simp only [List.mem_append] at hq
      rcases hq with hq | hq
      · refine ⟨hgood q hq, ?_⟩
        rw [hinv] at hq
        rcases List.mem_cons.mp hq with rfl | hq'
        · exact ⟨s, by simp, k, slotView_slot s k n⟩
        · obtain ⟨p, hp, count, hpc⟩ := hlink q hq'
          exact ⟨p, by simp [hp], count, hpc⟩
      · obtain ⟨hqg, p, hp, count, hpc⟩ := hri q hq
        refine ⟨hqg, p, ?_, count, hpc⟩
        rcases List.mem_cons.mp hp with rfl | hp'
        · simp
        · simp [hp']

/-- With enough budget `processType` returns on every consistent record, for
every thread level, and the trace of its invocations is `Linked`. -/
theorem processType_linked (L : Nat) (M T : Int) :
    ∀ (fuel : Nat) (s : TYPE_ARGUMENTS), Good s →
      (NUM_AMINO_ACID_TYPES - s.typeIndex) + (M + 1 - s.numAcids).toNat < fuel →
      ∃ e, processType L M T fuel s = some e ∧ (∃ n', e.args = setCounter s n') ∧
        Linked s e.invoked := by
  intro fuel
  induction fuel with
  | zero => intro s _ h; omega
  | succ fuel ih =>
    intro s hs hfuel
    simp only [processType]
    by_cases h19 : s.typeIndex = NUM_AMINO_ACID_TYPES
    · rw [if_pos h19]
      exact ⟨_, rfl, ⟨s.numCombinations, rfl⟩, [], rfl, by simpa using hs, by simp⟩
    · rw [if_neg h19]
      have ht : s.typeIndex < NUM_AMINO_ACID_TYPES := lt_of_le_of_ne hs.1.2.1 h19
      have hchild : ∀ (k : Nat) (n : Int), ∃ e,
          processType L M T fuel (setCounter (threadSlot s (k : Int)) n) = some e ∧
          (∃ n', e.args = setCounter (threadSlot s (k : Int)) n') ∧
          Linked (setCounter (threadSlot s (k : Int)) n) e.invoked := by
        intro k n
        obtain ⟨e, he, ⟨n', ha⟩, hl⟩ := ih (setCounter (threadSlot s (k : Int)) n)
          (good_setCounter (good_child hs ht k) n)
          (by simp only [threadSlot, setCounter]; omega)
        exact ⟨e, he, ⟨n', ha⟩, hl⟩
      by_cases hL : s.typeIndex < L
      · rw [if_pos hL]
        obtain ⟨es, hes, hall⟩ := runThreads_all (processType L M T fuel)
          (fun ch e => Linked ch e.invoked ∧ ∃ k : Nat, ch = threadSlot s (k : Int))
          (threadLoop T s (List.range (M - s.numAcids + 1).toNat)).1 (by
            intro ch hch
            obtain ⟨k, _, rfl⟩ := threadLoop_mem T s _ ch hch
            obtain ⟨e, he, _, hl⟩ := hchild k 1
            exact ⟨e, he, hl, k, rfl⟩)
        simp only [hes]
        refine ⟨_, rfl, ⟨_, rfl⟩, _, rfl, ?_, ?_⟩
        · intro q hq
          rcases List.mem_cons.mp hq with rfl | hq
          · exact hs
          · simp only [List.mem_flatten, List.mem_map] at hq
            obtain ⟨_, ⟨e, he, rfl⟩, hq⟩ := hq
            obtain ⟨ch, _, ⟨_, _, hgood, _⟩, _⟩ := hall e he
            exact hgood q hq
        · intro q hq
          simp only [List.mem_flatten, List.mem_map] at hq
          obtain ⟨_, ⟨e, he, rfl⟩, hq⟩ := hq
          obtain ⟨ch, _, ⟨rest, hinv, _, hlink⟩, k, rfl⟩ := hall e he
          have hsub : ∀ p ∈ e.invoked,
              p ∈ s :: (List.map (fun e => e.invoked) es).flatten := by
            intro p hp
            simp only [List.mem_cons, List.mem_flatten, List.mem_map]
            exact Or.inr ⟨e.invoked, ⟨e, he, rfl⟩, hp⟩
          rw [hinv] at hq
          rcases List.mem_cons.mp hq with rfl | hq'
          · exact ⟨s, by simp, k, rfl⟩
          · obtain ⟨p, hp, count, hpc⟩ := hlink q hq'
            exact ⟨p, hsub p hp, count, hpc⟩
      · rw [if_neg hL]
        obtain ⟨r, hr, ⟨K, n', hK, hra⟩, hri⟩ :=
          seqLoop_linked (processType L M T fuel) M T s hs ht (fun k n _ => hchild k n)
            (M - s.numAcids + 1).toNat 0 s.numCombinations (fuel + 1) (by omega) (by omega)
        rw [← seq_start s hs.1] at hr
        simp only [Nat.cast_zero] at hr
        rw [hr]
        refine ⟨_, rfl, ⟨n', putBack_slot s hs.1 r K n' hK hra⟩, _, rfl, ?_, ?_⟩
        · intro q hq
          rcases List.mem_cons.mp hq with rfl | hq
          · exact hs
          · exact (hri q hq).1
        · intro q hq
          exact (hri q hq).2

/-- C20 (invariant of the search record): in a run from the all-zero record, at
every invocation of `processType` and at every call of `printCounts` the record
has `currentMass` equal to the mass of its counts, `numAcids` equal to their
sum, a type index from 0 to 19 and 19 counts that are zero from the type index
on; every invocation after the first is entered with the slot that an
invocation of the run with the type index exactly one less made for some
count, so the type index grows by one per level of the recursion. -/
theorem processType_keeps_invariant (L : Nat) (M T : Int) (fuel : Nat)
    (hfuel : NUM_AMINO_ACID_TYPES + (M + 1).toNat < fuel) :
    ∃ e, processType L M T fuel zeroArguments = some e ∧
      (∀ q ∈ e.invoked ++ e.printed,
        q.currentMass = massOf q.typeCounts ∧ q.numAcids = q.typeCounts.sum ∧
        q.typeIndex ≤ NUM_AMINO_ACID_TYPES ∧ q.typeCounts.length = NUM_AMINO_ACID_TYPES ∧
        ∀ i, q.typeIndex ≤ i → q.typeCounts.getD i 0 = 0) ∧
      ∃ rest, e.invoked = zeroArguments :: rest ∧
        ∀ q ∈ rest, ∃ p ∈ e.invoked, ∃ count : Nat,
          q.typeIndex = p.typeIndex + 1 ∧ q.numAcids = p.numAcids + count ∧
          q.typeCounts = p.typeCounts.set p.typeIndex count ∧
          q.currentMass = p.currentMass + count * typeMasses.getD p.typeIndex 0 := by
  obtain ⟨e, he, _, hp, _⟩ := processType_zero L M T fuel hfuel
  obtain ⟨e', he', _, rest, hinv, hgood, hlink⟩ :=
    processType_linked L M T fuel zeroArguments zeroArguments_good
      (by simpa [zeroArguments] using hfuel)
  rw [he] at he'
  obtain rfl : e = e' := Option.some.inj he'
  refine ⟨e, he, ?_, rest, hinv, ?_⟩
  · intro q hq
    have hq' : Good q := by
      rcases List.mem_append.mp hq with hq | hq
      · exact hgood q hq
      · have hmem : slotView q ∈ (searchTree M T NUM_AMINO_ACID_TYPES zeroArguments).1 := by
          rw [← hp]
          exact List.mem_map_of_mem _ hq
        exact (searchTree_sound M T NUM_AMINO_ACID_TYPES zeroArguments zeroArguments_good rfl
          _ hmem).1
    exact ⟨hq'.2.2, hq'.2.1, hq'.1.2.1, hq'.1.1, hq'.1.2.2⟩
  · intro q hq
    obtain ⟨p, hp', count, hpc⟩ := hlink q hq
    have h1 : q.typeIndex = (slotView q).typeIndex := rfl
    have h2 : q.numAcids = (slotView q).numAcids := rfl
    have h3 : q.typeCounts = (slotView q).typeCounts := rfl
    have h4 : q.currentMass = (slotView q).currentMass := rfl
    exact ⟨p, hp', count, by rw [h1, hpc]; rfl, by rw [h2, hpc]; rfl, by rw [h3, hpc]; rfl,
      by rw [h4, hpc]; rfl⟩

/-- Witness of C20: the threaded search for 252.2229 Da with cap 4. -/
theorem processType_keeps_invariant_witness :
    ∃ e, processType THREAD_LEVEL 4 2522229 25 zeroArguments = some e ∧
      (∀ q ∈ e.invoked ++ e.printed,
        q.currentMass = massOf q.typeCounts ∧ q.numAcids = q.typeCounts.sum ∧
        q.typeIndex ≤ NUM_AMINO_ACID_TYPES ∧ q.typeCounts.length = NUM_AMINO_ACID_TYPES ∧
        ∀ i, q.typeIndex ≤ i → q.typeCounts.getD i 0 = 0) ∧
      ∃ rest, e.invoked = zeroArguments :: rest ∧
        ∀ q ∈ rest, ∃ p ∈ e.invoked, ∃ count : Nat,
          q.typeIndex = p.typeIndex + 1 ∧ q.numAcids = p.numAcids + count ∧
          q.typeCounts = p.typeCounts.set p.typeIndex count ∧
          q.currentMass = p.currentMass + count * typeMasses.getD p.typeIndex 0 :=
  processType_keeps_invariant THREAD_LEVEL 4 2522229 25 (by decide)

theorem searchTree_zero_target (M : Int) (hM : 0 ≤ M) :
    searchTree M 0 NUM_AMINO_ACID_TYPES zeroArguments = ([threadSlot zeroArguments 0], 0) := by
  obtain ⟨n, hn⟩ : ∃ n, (M - zeroArguments.numAcids + 1).toNat = n + 1 :=
    ⟨(M - zeroArguments.numAcids + 1).toNat - 1, by simp only [zeroArguments]; omega⟩
  show searchLoop _ 0 zeroArguments (List.range (M - zeroArguments.numAcids + 1).toNat) = _
  rw [hn, List.range_succ_eq_map]
  rfl

theorem searchTree_negative_target (M T : Int) (hT : T < 0) :
    searchTree M T NUM_AMINO_ACID_TYPES zeroArguments = ([], 0) := by
  show searchLoop _ T zeroArguments (List.range (M - zeroArguments.numAcids + 1).toNat) = _
  cases hr : List.range (M - zeroArguments.numAcids + 1).toNat with
  | nil => rfl
  | cons k more =>
    have hk : k = 0 := by
      cases hn : (M - zeroArguments.numAcids + 1).toNat with
      | zero => rw [hn] at hr; simp at hr
      | succ n =>
        rw [hn, List.range_succ_eq_map] at hr
        exact (List.cons.inj hr).1.symm
    subst hk
    have hmass : (threadSlot zeroArguments ((0 : Nat) : Int)).currentMass = 0 := by decide
    simp only [searchLoop, hmass, TOLERANCE, add_zero]
    rw [if_pos hT]

theorem invoked_single (L : Nat) (M T : Int) (fuel : Nat) (s : TYPE_ARGUMENTS) (e : Effect)
    (hs : s.typeIndex ≤ NUM_AMINO_ACID_TYPES)
    (hfuel : (NUM_AMINO_ACID_TYPES - s.typeIndex) + (M + 1 - s.numAcids).toNat < fuel)
    (he : processType L M T fuel s = some e) (hlen : e.invoked.length = 1) : e.invoked = [s] := by
  obtain ⟨e', he', _, _, _, ⟨rest, hinv, _, _⟩, _⟩ := processType_traced L M T fuel s hs hfuel
  rw [he] at he'
  obtain rfl : e = e' := Option.some.inj he'
  rw [hinv] at hlen ⊢
  simp only [List.length_cons, add_left_eq_self, List.length_eq_zero] at hlen
  rw [hlen]

/-- C27 (zero target): for the quantized target 0 and every cap `M ≥ 0`, a run
of `processType` from the all-zero record returns, hands exactly one row to
`printCounts`, the all-zero count vector with realized mass 0, and makes no
recursive call; for every negative target it hands no row to `printCounts`. -/
theorem processType_zero_target (L : Nat) (M : Int) (hM : 0 ≤ M) (fuel : Nat)
    (hfuel : NUM_AMINO_ACID_TYPES + (M + 1).toNat < fuel) :
    (∃ e, processType L M 0 fuel zeroArguments = some e ∧
      e.printed.map (fun p => p.typeCounts) = [List.replicate NUM_AMINO_ACID_TYPES 0] ∧
      e.printed.map (fun p => p.currentMass) = [0] ∧
      e.invoked = [zeroArguments]) ∧
    ∀ T : Int, T < 0 → ∃ e, processType L M T fuel zeroArguments = some e ∧ e.printed = [] := by
  constructor
  · obtain ⟨e, he, _, hp, hi⟩ := processType_zero L M 0 fuel hfuel
    rw [searchTree_zero_target M hM] at hp hi
    refine ⟨e, he, ?_, ?_, ?_⟩
    · rw [printed_counts, hp]
      decide
    · have h : e.printed.map (fun p => p.currentMass)
          = (e.printed.map slotView).map (fun p => p.currentMass) := by
        rw [List.map_map]; rfl
      rw [h, hp]
      decide
    · exact invoked_single L M 0 fuel zeroArguments e (by decide)
        (by simpa [zeroArguments] using hfuel) he (by simp only [add_zero] at hi; exact_mod_cast hi)
  · intro T hT
    obtain ⟨e, he, _, hp, _⟩ := processType_zero L M T fuel hfuel
    rw [searchTree_negative_target M T hT, List.map_eq_nil_iff] at hp
    exact ⟨e, he, hp⟩

/-- Witness of C27: the threaded search with cap 3. -/
theorem processType_zero_target_witness :
    (∃ e, processType THREAD_LEVEL 3 0 24 zeroArguments = some e ∧
      e.printed.map (fun p => p.typeCounts) = [List.replicate NUM_AMINO_ACID_TYPES 0] ∧
      e.printed.map (fun p => p.currentMass) = [0] ∧
      e.invoked = [zeroArguments]) ∧
    ∀ T : Int, T < 0 →
      ∃ e, processType THREAD_LEVEL 3 T 24 zeroArguments = some e ∧ e.printed = [] :=
  processType_zero_target THREAD_LEVEL 3 (by decide) 24 (by decide)

/-- C21, counterexample: in the threaded search for 150.1338 Da with cap 2 the
root record ends with `numCombinations` 194 while 195 invocations of
`processType` were made; the initial call is not counted. -/
theorem numCombinations_misses_root :
    ∃ e, processType THREAD_LEVEL 2 1501338 23 zeroArguments = some e ∧
      e.args.numCombinations = 194 ∧ e.invoked.length = 195 := by
  obtain ⟨e, he, ha, _, hi⟩ := processType_zero THREAD_LEVEL 2 1501338 23 (by decide)
  rw [searchTree_two_glycines] at ha hi
  refine ⟨e, he, by rw [ha]; rfl, ?_⟩
  have h : (e.invoked.length : Int) = 195 := by rw [hi]; rfl
  exact_mod_cast h

/-- C21, amended (what `numCombinations` counts): for every target `T` and cap
`M ≤ 20`, the `numCombinations` of the root record after `processType` returns
(started at 0) is the number of invocations of `processType` made during the
search other than the initial call, the calls that return at once at type
index 19 included; the number of all invocations is one more. -/
theorem numCombinations_counts_recursive_calls (L : Nat) (M T : Int)
    (hM : M ≤ MAX_PEPTIDE_SIZE) (fuel : Nat)
    (hfuel : NUM_AMINO_ACID_TYPES + (M + 1).toNat < fuel) :
    ∃ e, processType L M T fuel zeroArguments = some e ∧
      e.args.numCombinations = (e.invoked.tail.length : Int) ∧
      (e.invoked.length : Int) = e.args.numCombinations + 1 := by
  obtain ⟨e, he, ha, _, hi⟩ := processType_zero L M T fuel hfuel
  have hc : e.args.numCombinations
      = (searchTree M T NUM_AMINO_ACID_TYPES zeroArguments).2 := by rw [ha]; rfl
  refine ⟨e, he, ?_, by rw [hi, hc]; ring⟩
  rw [List.length_tail, hc]
  have hpos : 0 ≤ (searchTree M T NUM_AMINO_ACID_TYPES zeroArguments).2 :=
    searchTree_count_nonneg M T _ _
  omega

/-- Witness of C21: the threaded search for 252.2229 Da with cap 4. -/
theorem numCombinations_counts_recursive_calls_witness :
    ∃ e, processType THREAD_LEVEL 4 2522229 25 zeroArguments = some e ∧
      e.args.numCombinations = (e.invoked.tail.length : Int) ∧
      (e.invoked.length : Int) = e.args.numCombinations + 1 :=
  numCombinations_counts_recursive_calls THREAD_LEVEL 4 2522229 (by decide) 25 (by decide)

theorem sum_le_ceil (T : Int) (c : List Int) (hlen : c.length = NUM_AMINO_ACID_TYPES)
    (hnn : ∀ x ∈ c, 0 ≤ x) (hmass : massOf c = T) : c.sum ≤ ⌈(T : ℚ) / 750669⌉ := by
  have hlo := (massOf_bounds c hlen hnn).1
  rw [hmass] at hlo
  have h1 : ((c.sum : Int) : ℚ) ≤ (T : ℚ) / 750669 := by
    rw [le_div_iff₀ (by norm_num)]
    have : ((750669 * c.sum : Int) : ℚ) ≤ (T : ℚ) := by exact_mod_cast hlo
    rw [Int.cast_mul] at this
    have h0 : ((750669 : Int) : ℚ) = 750669 := by norm_num
    rw [h0] at this
    linarith
  have h2 : (T : ℚ) / 750669 ≤ ((⌈(T : ℚ) / 750669⌉ : Int) : ℚ) := Int.le_ceil _
  exact_mod_cast le_trans h1 h2

/-- C25 (an unclipped cap loses no composition): for every positive quantized
target `T` with `ceil(T / 750669) ≤ 20`, a run of `processType` from the
all-zero record with `maxAcids = ceil(T / 750669)` returns and emits every
vector of 19 non-negative counts whose mass is `T`, whatever its total count:
a composition of `k` residues weighs at least `k * 750669`. -/
theorem unclipped_cap_is_complete (L : Nat) (T : Int) (hT : 0 < T)
    (hcap : ⌈(T : ℚ) / 750669⌉ ≤ MAX_PEPTIDE_SIZE) (c : List Int)
    (hlen : c.length = NUM_AMINO_ACID_TYPES) (hnn : ∀ x ∈ c, 0 ≤ x) (hmass : massOf c = T)
    (fuel : Nat) (hfuel : NUM_AMINO_ACID_TYPES + (⌈(T : ℚ) / 750669⌉ + 1).toNat < fuel) :
    ∃ e, processType L ⌈(T : ℚ) / 750669⌉ T fuel zeroArguments = some e ∧
      c ∈ e.printed.map (fun p => p.typeCounts) := by
  obtain ⟨e, he, _, hp, _⟩ := processType_zero L ⌈(T : ℚ) / 750669⌉ T fuel hfuel
  refine ⟨e, he, ?_⟩
  rw [printed_counts, hp]
  obtain ⟨p, hp1, hp2⟩ := searchTree_complete ⌈(T : ℚ) / 750669⌉ T c hlen hnn
    (sum_le_ceil T c hlen hnn hmass) hmass NUM_AMINO_ACID_TYPES zeroArguments
    zeroArguments_good rfl (by decide) (zeroArguments_zeroFrom c hlen)
  exact List.mem_map.mpr ⟨p, hp1, hp2⟩

theorem ceil_coinciding : ⌈((2522229 : Int) : ℚ) / 750669⌉ = 4 := by
  rw [Int.ceil_eq_iff]
  norm_num

/-- Witness of C25: the target 2522229, whose unclipped cap is 4, and the
composition of one threonine and one aspartate. -/
theorem unclipped_cap_is_complete_witness :
    ∃ e, processType THREAD_LEVEL ⌈((2522229 : Int) : ℚ) / 750669⌉ 2522229 25 zeroArguments
        = some e ∧
      [0, 0, 0, 0, 0, 1, 0, 0, 0, 1, 0, 0, 0, 0, 0, 0, 0, 0, 0]
        ∈ e.printed.map (fun p => p.typeCounts) :=
  unclipped_cap_is_complete THREAD_LEVEL 2522229 (by decide)
    (by rw [ceil_coinciding]; decide)
    [0, 0, 0, 0, 0, 1, 0, 0, 0, 1, 0, 0, 0, 0, 0, 0, 0, 0, 0] (by decide) (by decide)
    (by decide) 25 (by rw [ceil_coinciding]; decide)

theorem emitted_pair (L : Nat) (M T : Int) (c₁ c₂ : List Int)
    (hlen₁ : c₁.length = NUM_AMINO_ACID_TYPES) (hnn₁ : ∀ x ∈ c₁, 0 ≤ x) (hsum₁ : c₁.sum ≤ M)
    (hmass₁ : massOf c₁ = T)
    (hlen₂ : c₂.length = NUM_AMINO_ACID_TYPES) (hnn₂ : ∀ x ∈ c₂, 0 ≤ x) (hsum₂ : c₂.sum ≤ M)
    (hmass₂ : massOf c₂ = T) (fuel fuel' : Nat)
    (hfuel : NUM_AMINO_ACID_TYPES + (M + 1).toNat < fuel) (hfuel' : NUM_AMINO_ACID_TYPES < fuel') :
    (∃ e, processType L M T fuel zeroArguments = some e ∧
      (e.printed.map (fun p => p.typeCounts)).Nodup ∧
      c₁ ∈ e.printed.map (fun p => p.typeCounts) ∧
      c₂ ∈ e.printed.map (fun p => p.typeCounts)) ∧
    ∃ r, Reference.processType fuel' M 0 T 0 (List.replicate NUM_AMINO_ACID_TYPES 0) = some r ∧
      r.printed.Nodup ∧ c₁ ∈ r.printed ∧ c₂ ∈ r.printed := by
  have hnd := searchTree_nodup M T NUM_AMINO_ACID_TYPES zeroArguments zeroArguments_good rfl
  have hm₁ : c₁ ∈ (searchTree M T NUM_AMINO_ACID_TYPES zeroArguments).1.map
      (fun p => p.typeCounts) := by
    obtain ⟨p, hp1, hp2⟩ := searchTree_complete M T c₁ hlen₁ hnn₁ hsum₁ hmass₁
      NUM_AMINO_ACID_TYPES zeroArguments zeroArguments_good rfl (by decide)
      (zeroArguments_zeroFrom c₁ hlen₁)
    exact List.mem_map.mpr ⟨p, hp1, hp2⟩
  have hm₂ : c₂ ∈ (searchTree M T NUM_AMINO_ACID_TYPES zeroArguments).1.map
      (fun p => p.typeCounts) := by
    obtain ⟨p, hp1, hp2⟩ := searchTree_complete M T c₂ hlen₂ hnn₂ hsum₂ hmass₂
      NUM_AMINO_ACID_TYPES zeroArguments zeroArguments_good rfl (by decide)
      (zeroArguments_zeroFrom c₂ hlen₂)
    exact List.mem_map.mpr ⟨p, hp1, hp2⟩
  constructor
  · obtain ⟨e, he, _, hp, _⟩ := processType_zero L M T fuel hfuel
    refine ⟨e, he, ?_, ?_, ?_⟩
    · rw [printed_counts, hp]
      exact hnd
    · rw [printed_counts, hp]
      exact hm₁
    · rw [printed_counts, hp]
      exact hm₂
  · obtain ⟨r, hr, _, hrp⟩ := reference_char M T fuel' zeroArguments zeroArguments_good.1
      (by simpa [zeroArguments] using hfuel')
    have e1 : M - zeroArguments.numAcids = M := by simp [zeroArguments]
    rw [e1] at hr
    have hrp' : r.printed = (searchTree M T NUM_AMINO_ACID_TYPES zeroArguments).1.map
        (fun p => p.typeCounts) := hrp
    refine ⟨r, hr, ?_, ?_, ?_⟩
    · rw [hrp']
      exact hnd
    · rw [hrp']
      exact hm₁
    · rw [hrp']
      exact hm₂

theorem round_benchmark (k : Nat) :
    round (10000 * ((k : ℚ) * (2042262 / 10000))) = (k : Int) * 2042262 := by
  have h : (10000 * ((k : ℚ) * (2042262 / 10000))) = (((k : Int) * 2042262 : Int) : ℚ) := by
    push_cast
    ring
  rw [h, round_intCast]

/-- C23, failing input: the first timing case of the threaded program, the
search for three times the heaviest mass with cap 20, emits the vector of three
tryptophans and also the vector of one proline, one threonine, one arginine and
one tryptophan, so it has more than one match. -/
theorem benchmark_second_match :
    typeMasses.getD 18 0 = 2042262 ∧
    ∃ e, processType THREAD_LEVEL 20 (3 * typeMasses.getD 18 0) 41 zeroArguments = some e ∧
      [0, 0, 0, 0, 0, 0, 0, 0, 0, 0, 0, 0, 0, 0, 0, 0, 0, 0, 3]
        ∈ e.printed.map (fun p => p.typeCounts) ∧
      [0, 0, 0, 1, 0, 1, 0, 0, 0, 0, 0, 0, 0, 0, 0, 0, 1, 0, 1]
        ∈ e.printed.map (fun p => p.typeCounts) ∧
      2 ≤ e.printed.length := by
  refine ⟨by decide, ?_⟩
  obtain ⟨⟨e, he, _, hm1, h2⟩, _⟩ := emitted_pair THREAD_LEVEL 20 (3 * typeMasses.getD 18 0)
    [0, 0, 0, 0, 0, 0, 0, 0, 0, 0, 0, 0, 0, 0, 0, 0, 0, 0, 3]
    [0, 0, 0, 1, 0, 1, 0, 0, 0, 0, 0, 0, 0, 0, 0, 0, 1, 0, 1]
    (by decide) (by decide) (by decide) (by decide) (by decide) (by decide) (by decide)
    (by decide) 41 20 (by decide) (by decide)
  refine ⟨e, he, hm1, h2, ?_⟩
  have hnd : ([[0, 0, 0, 0, 0, 0, 0, 0, 0, 0, 0, 0, 0, 0, 0, 0, 0, 0, 3],
      [0, 0, 0, 1, 0, 1, 0, 0, 0, 0, 0, 0, 0, 0, 0, 0, 1, 0, 1]] : List (List Int)).Nodup := by
    decide
  have hsub : ([[0, 0, 0, 0, 0, 0, 0, 0, 0, 0, 0, 0, 0, 0, 0, 0, 0, 0, 3],
      [0, 0, 0, 1, 0, 1, 0, 0, 0, 0, 0, 0, 0, 0, 0, 0, 1, 0, 1]] : List (List Int))
      ⊆ e.printed.map (fun p => p.typeCounts) := by
    intro x hx
    simp only [List.mem_cons, List.mem_singleton, List.not_mem_nil, or_false] at hx
    rcases hx with rfl | rfl
    · exact hm1
    · exact h2
  have := (List.subperm_of_subset hnd hsub).length_le
  simpa using this

/-- Every timing case has a second match: for each `k` from 2 to 11 the target
`k * typeMasses[18]` with cap 20 is matched by the vector with `k` in the slot
of the heaviest type and 0 elsewhere, which is emitted exactly once (the list
of emitted vectors has no repetition), and also by the vector with one proline,
one threonine, one arginine and `k - 2` tryptophans.  This holds for the
threaded search (timing cases `k` from 3 to 11) and for `findPeptides` of the
reference program (timing cases `k` from 2 to 11). -/
theorem benchmark_matches (L : Nat) (k : Nat) (h2 : 2 ≤ k) (h11 : k ≤ 11) (fuel fuel' : Nat)
    (hfuel : 40 < fuel) (hfuel' : NUM_AMINO_ACID_TYPES < fuel') :
    (∃ e, processType L MAX_PEPTIDE_SIZE ((k : Int) * typeMasses.getD 18 0) fuel zeroArguments
        = some e ∧
      (e.printed.map (fun p => p.typeCounts)).Nodup ∧
      List.replicate 18 0 ++ [(k : Int)] ∈ e.printed.map (fun p => p.typeCounts) ∧
      [0, 0, 0, 1, 0, 1, 0, 0, 0, 0, 0, 0, 0, 0, 0, 0, 1, 0, (k : Int) - 2]
        ∈ e.printed.map (fun p => p.typeCounts)) ∧
    ∃ r, Reference.findPeptides fuel' ((k : ℚ) * (2042262 / 10000)) 20 = some r ∧
      r.printed.Nodup ∧ List.replicate 18 0 ++ [(k : Int)] ∈ r.printed ∧
      [0, 0, 0, 1, 0, 1, 0, 0, 0, 0, 0, 0, 0, 0, 0, 0, 1, 0, (k : Int) - 2] ∈ r.printed := by
  have hw : typeMasses.getD 18 0 = 2042262 := by decide
  simp only [Reference.findPeptides, round_benchmark, hw, MAX_PEPTIDE_SIZE]
  have key : ∀ j : Nat, 2 ≤ j → j ≤ 11 →
      (∀ x ∈ (List.replicate 18 0 ++ [(j : Int)]), (0 : Int) ≤ x) ∧
      (List.replicate 18 0 ++ [(j : Int)]).sum ≤ 20 ∧
      massOf (List.replicate 18 0 ++ [(j : Int)]) = (j : Int) * 2042262 ∧
      (∀ x ∈ [0, 0, 0, 1, 0, 1, 0, 0, 0, 0, 0, 0, 0, 0, 0, 0, 1, 0, (j : Int) - 2],
        (0 : Int) ≤ x) ∧
      ([0, 0, 0, 1, 0, 1, 0, 0, 0, 0, 0, 0, 0, 0, 0, 0, 1, 0, (j : Int) - 2] : List Int).sum
        ≤ 20 ∧
      massOf [0, 0, 0, 1, 0, 1, 0, 0, 0, 0, 0, 0, 0, 0, 0, 0, 1, 0, (j : Int) - 2]
        = (j : Int) * 2042262 := by
    intro j hj2 hj11
    interval_cases j <;> decide
  obtain ⟨k1, k2, k3, k4, k5, k6⟩ := key k h2 h11
  exact emitted_pair L 20 ((k : Int) * 2042262) _ _ (by simp [NUM_AMINO_ACID_TYPES]) k1 k2 k3
    (by simp [NUM_AMINO_ACID_TYPES]) k4 k5 k6 fuel fuel' (by simp [NUM_AMINO_ACID_TYPES]; omega)
    hfuel'

theorem countP_deeper (t : Nat) (l : List TYPE_ARGUMENTS) (h : ∀ q ∈ l, t < q.typeIndex) :
    l.countP (fun q => decide (q.typeIndex = t)) = 0 := by
  rw [List.countP_eq_zero]
  intro q hq
  have := h q hq
  simp only [decide_eq_true_eq]
  omega

theorem countP_traced (L : Nat) (M : Int) (x : TYPE_ARGUMENTS) (e : Effect)
    (h : Traced L M x e) :
    e.invoked.countP (fun q => decide (q.typeIndex = x.typeIndex)) = 1 := by
  obtain ⟨_, _, _, ⟨rest, hinv, hrest, _⟩, _⟩ := h
  rw [hinv, List.countP_cons_of_pos _ _ (by simp),
    countP_deeper x.typeIndex rest (fun q hq => (hrest q hq).2)]

theorem seqLoop_bounded (recurse : TYPE_ARGUMENTS → Option Effect) (L : Nat) (M T : Int)
    (t : Nat) (a : Int)
    (hrec : ∀ x : TYPE_ARGUMENTS, x.typeIndex = t + 1 → a ≤ x.numAcids →
      ∃ e, recurse x = some e ∧ Traced L M x e ∧
        ∀ q ∈ e.invoked, q.typeIndex ≤ NUM_AMINO_ACID_TYPES ∧ a ≤ q.numAcids) :
    ∀ (len k : Nat) (x : TYPE_ARGUMENTS) (lf : Nat) (loopCount : Int), x.numAcids = a + k →
      x.typeIndex = t + 1 → k + len = (M - a + 1).toNat → len < lf →
      ∃ r, seqLoop recurse M T t lf x loopCount = some r ∧
        (∀ q ∈ r.invoked, q.typeIndex ≤ NUM_AMINO_ACID_TYPES ∧ a ≤ q.numAcids) ∧
        r.invoked.countP (fun q => decide (q.typeIndex = t + 1)) ≤ len := by
  intro len
  induction len with
  | zero =>
    intro k x lf loopCount hxa hxt hk hlf
    obtain ⟨lf, rfl⟩ : ∃ n, lf = n + 1 := ⟨lf - 1, by omega⟩
    have hg : ¬ (x.numAcids ≤ M) := by omega
    exact ⟨_, by simp only [seqLoop]; rw [if_neg hg], by simp, by simp⟩
  | succ len ih =>
    intro k x lf loopCount hxa hxt hk hlf
    obtain ⟨lf, rfl⟩ : ∃ n, lf = n + 1 := ⟨lf - 1, by omega⟩
    have hg : x.numAcids ≤ M := by omega
    simp only [seqLoop]
    rw [if_pos hg]
    split_ifs with h1 h2
    · exact ⟨_, rfl, by simp, by simp⟩
    · exact ⟨_, rfl, by simp, by simp⟩
    · obtain ⟨e, he, htr, hle⟩ := hrec x hxt (by omega)
      have hcount := countP_traced L M x e htr
      rw [hxt] at hcount
      obtain ⟨ha, ht, _, _, _⟩ := htr
      obtain ⟨r, hr, hrle, hrc⟩ := ih (k + 1) (addOne t e.args) lf (loopCount + 1)
        (by simp only [addOne, ha, hxa]; push_cast; ring)
        (by simp only [addOne, ht, hxt]) (by omega) (by omega)
      rw [he]
      simp only [hr]
      refine ⟨_, rfl, ?_, ?_⟩
      · intro q hq
        rcases List.mem_append.mp hq with hq | hq
        · exact hle q hq
        · exact hrle q hq
      · rw [List.countP_append, hcount]
        omega

theorem runThreads_bounded (body : TYPE_ARGUMENTS → Option Effect) (L : Nat) (M : Int) (t : Nat)
    (a : Int) (l : List TYPE_ARGUMENTS)
    (h : ∀ ch ∈ l, ch.typeIndex = t + 1 ∧ ∃ e, body ch = some e ∧ Traced L M ch e ∧
      ∀ q ∈ e.invoked, q.typeIndex ≤ NUM_AMINO_ACID_TYPES ∧ a ≤ q.numAcids) :
    ∃ es, runThreads body l = some es ∧
      (∀ q ∈ (es.map (fun e => e.invoked)).flatten,
        q.typeIndex ≤ NUM_AMINO_ACID_TYPES ∧ a ≤ q.numAcids) ∧
      (es.map (fun e => e.invoked)).flatten.countP (fun q => decide (q.typeIndex = t + 1))
        = l.length := by
  induction l with
  | nil => exact ⟨[], rfl, by simp, by simp⟩
  | cons ch more ih =>
    obtain ⟨hct, e, he, htr, hle⟩ := h ch (by simp)
    obtain ⟨es, hes, hall, hcnt⟩ := ih (fun c hc => h c (by simp [hc]))
    have hcount := countP_traced L M ch e htr
    rw [hct] at hcount
    refine ⟨e :: es, by simp [runThreads, he, hes], ?_, ?_⟩
    · intro q hq
      simp only [List.map_cons, List.flatten_cons, List.mem_append] at hq
      rcases hq with hq | hq
      · exact hle q hq
      · exact hall q hq
    · simp only [List.map_cons, List.flatten_cons, List.countP_append, hcount, hcnt,
        List.length_cons]
      omega

theorem threadLoop_length (T : Int) (s : TYPE_ARGUMENTS) (ks : List Nat) :
    (threadLoop T s ks).1.length ≤ ks.length := by
  induction ks with
  | nil => simp [threadLoop]
  | cons k more ih =>
    simp only [threadLoop]
    split_ifs
    · simp
    · simp
    · simp only [List.length_cons]
      omega

/-- With enough budget `processType` returns on every record with a type index
up to 19: the run is `Traced`, no invocation has a type index above 19, and the
invocations one level down are at most as many as the candidate counts. -/
theorem processType_bounded (L : Nat) (M T : Int) :
    ∀ (fuel : Nat) (s : TYPE_ARGUMENTS), s.typeIndex ≤ NUM_AMINO_ACID_TYPES →
      (NUM_AMINO_ACID_TYPES - s.typeIndex) + (M + 1 - s.numAcids).toNat < fuel →
      ∃ e, processType L M T fuel s = some e ∧ Traced L M s e ∧
        (∀ q ∈ e.invoked, q.typeIndex ≤ NUM_AMINO_ACID_TYPES ∧ s.numAcids ≤ q.numAcids) ∧
        e.invoked.countP (fun q => decide (q.typeIndex = s.typeIndex + 1))
          ≤ (M - s.numAcids + 1).toNat := by
  intro fuel
  induction fuel with
  | zero => intro s _ h; omega
  | succ fuel ih =>
    intro s hle hfuel
    obtain ⟨e, he, htr⟩ := processType_traced L M T (fuel + 1) s hle hfuel
    refine ⟨e, he, htr, ?_⟩
    simp only [processType] at he
    by_cases h19 : s.typeIndex = NUM_AMINO_ACID_TYPES
    · rw [if_pos h19] at he
      rw [← Option.some.inj he]
      simp only [List.mem_singleton, forall_eq, List.countP_cons, List.countP_nil]
      exact ⟨⟨hle, le_refl _⟩, by simp⟩
    · rw [if_neg h19] at he
      have ht : s.typeIndex < NUM_AMINO_ACID_TYPES := lt_of_le_of_ne hle h19
      by_cases hL : s.typeIndex < L
      · rw [if_pos hL] at he
        obtain ⟨es, hes, hall, hcnt⟩ := runThreads_bounded (processType L M T fuel) L M
          s.typeIndex s.numAcids (threadLoop T s (List.range (M - s.numAcids + 1).toNat)).1 (by
            intro ch hch
            obtain ⟨k, _, rfl⟩ := threadLoop_mem T s _ ch hch
            obtain ⟨e', he', htr', hle', _⟩ := ih (threadSlot s (k : Int))
              (by simp only [threadSlot]; omega) (by simp only [threadSlot]; omega)
            refine ⟨rfl, e', he', htr', fun q hq => ⟨(hle' q hq).1, ?_⟩⟩
            have := (hle' q hq).2
            simp only [threadSlot] at this
            omega)
        simp only [hes] at he
        rw [← Option.some.inj he]
        refine ⟨?_, ?_⟩
        · intro q hq
          rcases List.mem_cons.mp hq with rfl | hq
          · exact ⟨hle, le_refl _⟩
          · exact hall q hq
        · rw [List.countP_cons_of_neg _ _ (by simp), hcnt]
          have := threadLoop_length T s (List.range (M - s.numAcids + 1).toNat)
          simpa using this
      · rw [if_neg hL] at he
        obtain ⟨r, hr, hrle, hrc⟩ :=
          seqLoop_bounded (processType L M T fuel) L M T s.typeIndex s.numAcids
            (fun x hxt hxa => by
              obtain ⟨e', he', htr', hle', _⟩ := ih x (by omega) (by omega)
              exact ⟨e', he', htr', fun q hq => ⟨(hle' q hq).1, le_trans hxa (hle' q hq).2⟩⟩)
            (M - s.numAcids + 1).toNat 0 { s with typeIndex := s.typeIndex + 1 } (fuel + 1) 0
            (by simp) rfl (by omega) (by omega)
        rw [hr] at he
        rw [← Option.some.inj he]
        refine ⟨?_, ?_⟩
        · intro q hq
          rcases List.mem_cons.mp hq with rfl | hq
          · exact ⟨hle, le_refl _⟩
          · exact hrle q hq
        · rw [List.countP_cons_of_neg _ _ (by simp)]
          exact hrc

/-- C22 (the search runs to completion): for every target `T`, every cap
`M ≥ 0` and every record with a type index from 0 to 19, `processType` returns
once the budget exceeds `19 - typeIndex` plus the number of candidate counts.
The recursion is well founded: every invocation made by the call has a larger
type index, at most 19, and the invocations one level down, one per pass of
the count loop that recurses, are at most `M - numAcids + 1`. -/
theorem processType_terminates (L : Nat) (M T : Int) (hM : 0 ≤ M) (s : TYPE_ARGUMENTS)
    (hs : s.typeIndex ≤ NUM_AMINO_ACID_TYPES) (fuel : Nat)
    (hfuel : (NUM_AMINO_ACID_TYPES - s.typeIndex) + (M + 1 - s.numAcids).toNat < fuel) :
    ∃ e, processType L M T fuel s = some e ∧
      (∀ q ∈ e.invoked.tail, s.typeIndex < q.typeIndex ∧ q.typeIndex ≤ NUM_AMINO_ACID_TYPES) ∧
      e.invoked.countP (fun q => decide (q.typeIndex = s.typeIndex + 1))
        ≤ (M - s.numAcids + 1).toNat := by
  obtain ⟨e, he, ⟨_, _, _, ⟨rest, hinv, hrest, _⟩, _⟩, hle, hcnt⟩ :=
    processType_bounded L M T fuel s hs hfuel
  refine ⟨e, he, ?_, hcnt⟩
  intro q hq
  rw [hinv, List.tail_cons] at hq
  exact ⟨(hrest q hq).2, (hle q (by rw [hinv]; simp [hq])).1⟩

/-- Witness of C22: a record with arbitrary counts entering type 17 of a search
for 500 Da with cap 2. -/
theorem processType_terminates_witness :
    ∃ e, processType THREAD_LEVEL 2 5000000 5
        ⟨1, 17, [3, 0, 7, 0, 0, 0, 0, 0, 0, 0, 0, 0, 0, 0, 0, 0, 0, 4, 9], 123, 7⟩ = some e ∧
      (∀ q ∈ e.invoked.tail, 17 < q.typeIndex ∧ q.typeIndex ≤ NUM_AMINO_ACID_TYPES) ∧
      e.invoked.countP (fun q => decide (q.typeIndex = 17 + 1)) ≤ ((2 : Int) - 1 + 1).toNat :=
  processType_terminates THREAD_LEVEL 2 5000000 (by decide)
    ⟨1, 17, [3, 0, 7, 0, 0, 0, 0, 0, 0, 0, 0, 0, 0, 0, 0, 0, 0, 4, 9], 123, 7⟩ (by decide) 5
    (by decide)

theorem slotsFilled_mem (T : Int) (s : TYPE_ARGUMENTS) (ks : List Nat) (i : Nat)
    (h : i ∈ slotsFilled T s ks) : i ∈ ks := by
  induction ks with
  | nil => simp [slotsFilled] at h
  | cons k more ih =>
    simp only [slotsFilled] at h
    split_ifs at h with h1 h2
    · simp only [List.mem_singleton] at h
      simp [h]
    · simp only [List.mem_singleton] at h
      simp [h]
    · simp only [List.mem_cons] at h
      rcases h with h | h
      · simp [h]
      · simp [ih h]

/-- C26 (the fixed-size arrays are not overrun): for every target `T`, every
cap `M` with `0 ≤ M ≤ MAX_PEPTIDE_SIZE` and every thread level, the search from
the all-zero record returns, and every invocation that passes the base case has
a type index below 19, the index it uses into `typeMasses` and `typeCounts`.
When the invocation takes the threaded branch, there are at most
`M - numAcids + 1 ≤ 21` candidate counts, every slot of `threadArguments` the
loop fills has an index below 21, at most as many threads are created as there
are candidates, and every index used into `threadIds`, and into
`threadArguments` by the join loop, is below 21. -/
theorem task_arrays_within_bounds (L : Nat) (M T : Int) (h0 : 0 ≤ M)
    (hM : M ≤ MAX_PEPTIDE_SIZE) (fuel : Nat)
    (hfuel : NUM_AMINO_ACID_TYPES + (M + 1).toNat < fuel) :
    ∃ e, processType L M T fuel zeroArguments = some e ∧
      ∀ q ∈ e.invoked, q.typeIndex ≠ NUM_AMINO_ACID_TYPES →
        q.typeIndex < NUM_AMINO_ACID_TYPES ∧
        (q.typeIndex < L →
          (List.range (M - q.numAcids + 1).toNat).length ≤ 21 ∧
          (∀ i ∈ slotsFilled T q (List.range (M - q.numAcids + 1).toNat), i < 21) ∧
          (threadLoop T q (List.range (M - q.numAcids + 1).toNat)).1.length
            ≤ (List.range (M - q.numAcids + 1).toNat).length ∧
          ∀ i ∈ threadIdsUsed (threadLoop T q (List.range (M - q.numAcids + 1).toNat)).1.length,
            i < 21) := by
  obtain ⟨e, he, _, hle, _⟩ := processType_bounded L M T fuel zeroArguments (by decide)
    (by simp only [zeroArguments]; omega)
  refine ⟨e, he, ?_⟩
  intro q hq h19
  obtain ⟨hq19, hq0⟩ := hle q hq
  simp only [zeroArguments] at hq0
  simp only [MAX_PEPTIDE_SIZE] at hM
  refine ⟨lt_of_le_of_ne hq19 h19, fun _ => ?_⟩
  have hlen := threadLoop_length T q (List.range (M - q.numAcids + 1).toNat)
  have hcand : (M - q.numAcids + 1).toNat ≤ 21 := by omega
  rw [List.length_range] at hlen ⊢
  refine ⟨hcand, ?_, hlen, ?_⟩
  · intro i hi
    have := slotsFilled_mem T q _ i hi
    rw [List.mem_range] at this
    omega
  · intro i hi
    simp only [threadIdsUsed, List.mem_range] at hi
    omega

/-- Witness of C26: the search for two glycines at the largest cap. -/
theorem task_arrays_within_bounds_witness :
    ∃ e, processType THREAD_LEVEL 20 1501338 41 zeroArguments = some e ∧
      ∀ q ∈ e.invoked, q.typeIndex ≠ NUM_AMINO_ACID_TYPES →
        q.typeIndex < NUM_AMINO_ACID_TYPES ∧
        (q.typeIndex < THREAD_LEVEL →
          (List.range (20 - q.numAcids + 1).toNat).length ≤ 21 ∧
          (∀ i ∈ slotsFilled 1501338 q (List.range (20 - q.numAcids + 1).toNat), i < 21) ∧
          (threadLoop 1501338 q (List.range (20 - q.numAcids + 1).toNat)).1.length
            ≤ (List.range (20 - q.numAcids + 1).toNat).length ∧
          ∀ i ∈ threadIdsUsed
              (threadLoop 1501338 q (List.range (20 - q.numAcids + 1).toNat)).1.length,
            i < 21) :=
  task_arrays_within_bounds THREAD_LEVEL 20 1501338 (by decide) (by decide) 41 (by decide)

theorem argumentLoop_threshold (sscanf : String → Option ℚ) :
    ∀ (n : Nat) (argv : List String), argv.length ≤ n → ∀ (p q : PeakFinder.Parameters)
      (left : List String),
      PeakFinder.argumentLoop sscanf argv p = some (q, left) → q.threshold = p.threshold := by
  intro n
  induction n with
  | zero =>
    intro argv hn p q left h
    match argv, hn with
    | [], _ =>
      simp only [PeakFinder.argumentLoop, Option.some.injEq, Prod.mk.injEq] at h
      rw [← h.1]
  | succ n ih =>
    intro argv hn p q left h
    match argv, hn with
    | [], _ =>
      simp only [PeakFinder.argumentLoop, Option.some.injEq, Prod.mk.injEq] at h
      rw [← h.1]
    | [x], _ =>
      simp only [PeakFinder.argumentLoop, Option.some.injEq, Prod.mk.injEq] at h
      rw [← h.1]
    | option :: value :: more, hn =>
      simp only [PeakFinder.argumentLoop] at h
      have hm : more.length ≤ n := by simp only [List.length_cons] at hn; omega
      split_ifs at h with h1 h2 h3
      · cases hs : sscanf value with
        | none => rw [hs] at h; simp at h
        | some w =>
          rw [hs] at h
          exact ih more hm { p with window_size := w } q left h
      · cases hs : sscanf value with
        | none => rw [hs] at h; simp at h
        | some w =>
          rw [hs] at h
          exact ih more hm { p with peak_size := w } q left h
      · have e1 : option = "-window_size" := not_not.mp h1
        have e2 : option = "-peak_size" := not_not.mp h2
        rw [e1] at e2
        exact absurd e2 (by decide)

/-- No argument vector changes the threshold: whenever the argument parsing of
the peak finder reaches the detection stage, `threshold` has its default 5. -/
theorem threshold_never_set (sscanf : String → Option ℚ) (argv : List String)
    (p : PeakFinder.Parameters) (fileName : Option String)
    (h : PeakFinder.main sscanf argv = PeakFinder.Outcome.detect p fileName) :
    p.threshold = 5 := by
  simp only [PeakFinder.main] at h
  cases hl : PeakFinder.argumentLoop sscanf argv.tail PeakFinder.defaults with
  | none => rw [hl] at h; simp at h
  | some r =>
    obtain ⟨q, left⟩ := r
    rw [hl] at h
    simp only [PeakFinder.Outcome.detect.injEq] at h
    rw [← h.1]
    exact argumentLoop_threshold sscanf _ _ (le_refl _) _ q left hl

/-- C24, failing input: whatever `sscanf` does on other texts, when it reads 32,
4 and 2 from "32", "4" and "2", then for the arguments `-window_size 32 data.csv`
the peak finder leaves `window_size` at its default 16 and sets `peak_size` to
32; for `-peak_size 4 data.csv` it leaves `peak_size` at 8 and sets
`window_size` to 4; for `-threshold 2 data.csv` it leaves `threshold` at 5 and
sets `window_size` to 2.  In each case the last argument is the file name. -/
theorem option_sets_other_parameter (other : String → Option ℚ) :
    PeakFinder.main
        (fun text => if text = "32" then some 32 else if text = "4" then some 4
          else if text = "2" then some 2 else other text)
        ["findMassSpecPeaks", "-window_size", "32", "data.csv"]
        = PeakFinder.Outcome.detect ⟨16, 32, 5⟩ (some "data.csv") ∧
      PeakFinder.main
        (fun text => if text = "32" then some 32 else if text = "4" then some 4
          else if text = "2" then some 2 else other text)
        ["findMassSpecPeaks", "-peak_size", "4", "data.csv"]
        = PeakFinder.Outcome.detect ⟨4, 8, 5⟩ (some "data.csv") ∧
      PeakFinder.main
        (fun text => if text = "32" then some 32 else if text = "4" then some 4
          else if text = "2" then some 2 else other text)
        ["findMassSpecPeaks", "-threshold", "2", "data.csv"]
        = PeakFinder.Outcome.detect ⟨2, 8, 5⟩ (some "data.csv") := by
  refine ⟨?_, ?_, ?_⟩
  · simp [PeakFinder.main, PeakFinder.argumentLoop, PeakFinder.defaults]
  · simp [PeakFinder.main, PeakFinder.argumentLoop, PeakFinder.defaults]
  · simp [PeakFinder.main, PeakFinder.argumentLoop, PeakFinder.defaults]

end SSEAPS
